import Mathlib

/-!
# Verification of the NSDSP wavelet/FIR core

Shallow embedding of the NSDSP library's FIR engine (`fir_filter.c`), the
Lagrange half-band coefficient generator (`lagrange_halfband.c`), the DWT
decomposition engine (`dwt.c`) and the RT-momentos service pool
(`rt_momentos.c`), together with proofs of the specified properties.

Machine floats are embedded as exact rationals (`ℚ`); the 32-bit unsigned
counters of the DWT engine are embedded as `ℕ` with explicit reduction
modulo `2^32` where the C code can wrap.
-/

set_option maxRecDepth 4000

namespace NSDSP

/-- Functional update of a C array modelled as a function: `a[i] = v`. -/
def upd {α : Type*} (f : ℕ → α) (i : ℕ) (v : α) : ℕ → α :=
  fun j => if j = i then v else f j

@[simp] theorem upd_same {α : Type*} (f : ℕ → α) (i : ℕ) (v : α) : upd f i v i = v := by
  simp [upd]

@[simp] theorem upd_ne {α : Type*} (f : ℕ → α) (i j : ℕ) (v : α) (h : j ≠ i) :
    upd f i v j = f j := by
  simp [upd, h]

/-! ## FIR engine (`fir_filter.c`) -/

/-- `#define MAX_FIR_LENGTH 128` from `fir_filter.h`. -/
def MAX_FIR_LENGTH : ℕ := 128

/-- `FIR_FILTER_OBJECT`: `ncoef`, the coefficient pointer `pcoef`, the delay
line pointer `pz`, and the write cursor `p_write` embedded as the index `w`
into the delay line. The two pointers may be NULL, hence `Option`. -/
structure FIR_FILTER_OBJECT where
  ncoef : ℕ
  pcoef : Option (List ℚ)
  pz : Option (List ℚ)
  w : ℕ
  deriving Repr

/-- `Get_Fir(ncoef, pcoef, pz)`: if `pz` is non-null, zero-fill
`pz[0..ncoef)`; record `ncoef`, the two pointers, and start the write cursor
at `pz[0]`.  There is no validation of `ncoef` in the C code. -/
def Get_Fir (ncoef : ℕ) (pcoef : Option (List ℚ)) (pz : Option (List ℚ)) :
    FIR_FILTER_OBJECT :=
  let pz' := match pz with
    | none => none
    | some z => some (List.replicate ncoef (0:ℚ) ++ z.drop ncoef)
  { ncoef := ncoef, pcoef := pcoef, pz := pz', w := 0 }

/-- One step of the convolution pointer `pinit`: decrement, wrapping from
`pz[0]` back to `pz[N-1]` (the C code compares `pinit < pmin` after the
post-decrement and resets to `pmax - 1`). -/
def pinitStep (N p : ℕ) : ℕ := if p = 0 then N - 1 else p - 1

/-- The convolution loop of `fir_filter`: `n` remaining iterations, current
coefficient index `k`, current read position `p`; accumulates
`coef[k] * z[p]` and walks `p` backwards with wraparound. -/
def firConvAux (coef z : List ℚ) (N : ℕ) : ℕ → ℕ → ℕ → ℚ
  | 0, _, _ => 0
  | n+1, k, p => coef.getD k 0 * z.getD p 0 + firConvAux coef z N n (k+1) (pinitStep N p)

/-- The body of `fir_filter` after the two error guards, acting on an
explicit delay line `z` and cursor `w`: write `xn` at the cursor, advance the
cursor with wraparound at `N`, then run the convolution loop starting from
the position just written.  Returns `(y, z', w')`. -/
def fir_filter_core (N : ℕ) (coef z : List ℚ) (w : ℕ) (xn : ℚ) : ℚ × List ℚ × ℕ :=
  let z' := z.set w xn
  let w1 := w + 1
  let w' := if w1 = N then 0 else w1
  (firConvAux coef z' N N 0 w, z', w')

/-- `fir_filter(xn, pfir)`: returns `0.0` leaving the object untouched when
`pfir` is NULL or `ncoef > MAX_FIR_LENGTH`; otherwise filters one sample.
(The arm where a surviving object has a NULL buffer is unreachable defined
behaviour in the C program and is embedded as the error result.) -/
def fir_filter (xn : ℚ) (pfir : Option FIR_FILTER_OBJECT) :
    ℚ × Option FIR_FILTER_OBJECT :=
  match pfir with
  | none => (0, none)
  | some f =>
    if f.ncoef > MAX_FIR_LENGTH then (0, some f)
    else
      match f.pz, f.pcoef with
      | some z, some c =>
        let r := fir_filter_core f.ncoef c z f.w xn
        (r.1, some { f with pz := some r.2.1, w := r.2.2 })
      | _, _ => (0, some f)

/-! ### Closed form of the convolution loop -/

theorem pinitStep_eq (N p : ℕ) (hp : p < N) : pinitStep N p = (p + (N-1)) % N := by
  unfold pinitStep
  rcases Nat.eq_zero_or_pos p with h0 | h0
  · subst h0
    simp [Nat.mod_eq_of_lt (show N - 1 < N by omega)]
  · have hne : p ≠ 0 := by omega
    have : p + (N - 1) = (p - 1) + N := by omega
    rw [if_neg hne, this, Nat.add_mod_right, Nat.mod_eq_of_lt (by omega)]

theorem pinitStep_lt (N p : ℕ) (hp : p < N) : pinitStep N p < N := by
  unfold pinitStep
  split <;> omega

theorem firConvAux_eq (c z : List ℚ) (N : ℕ) :
    ∀ n k p, p < N →
      firConvAux c z N n k p
        = ∑ j ∈ Finset.range n, c.getD (k+j) 0 * z.getD ((p + (N-1)*j) % N) 0 := by
  intro n
  induction n with
  | zero => intro k p _; simp [firConvAux]
  | succ n ih =>
    intro k p hp
    rw [firConvAux, ih (k+1) (pinitStep N p) (pinitStep_lt N p hp),
      Finset.sum_range_succ']
    have h0 : c.getD (k+0) 0 * z.getD ((p + (N-1)*0) % N) 0
        = c.getD k 0 * z.getD p 0 := by
      simp [Nat.mod_eq_of_lt hp]
    rw [h0, add_comm]
    congr 1
    apply Finset.sum_congr rfl
    intro j _
    congr 2
    · omega
    · rw [pinitStep_eq N p hp, Nat.mod_add_mod]
      congr 1
      ring

theorem conv_index_eq (N w j : ℕ) (hj : j < N) :
    (w + (N-1)*j) % N = (w + (N - j)) % N := by
  rcases Nat.eq_zero_or_pos j with h0 | h0
  · subst h0
    have : w + (N - 0) = w + N := by omega
    rw [this, Nat.add_mod_right]
    simp
  · obtain ⟨j', rfl⟩ : ∃ j', j = j' + 1 := ⟨j - 1, by omega⟩
    have h : w + (N-1)*(j'+1) = (w + (N - (j'+1))) + N * j' := by
      have e1 : (N-1)*(j'+1) = (N-1)*j' + (N-1) := by ring
      have e2 : (N-1)*j' + j' = N*j' := by
        have hN : N - 1 + 1 = N := by omega
        calc (N-1)*j' + j' = (N-1+1)*j' := by ring
        _ = N*j' := by rw [hN]
      omega
    calc (w + (N-1)*(j'+1)) % N = ((w + (N - (j'+1))) + N * j') % N := by rw [h]
    _ = (w + (N - (j'+1))) % N := by rw [Nat.add_mul_mod_self_left]

/-- Helper: behaviour of `fir_filter` on a well-formed instance. -/
theorem fir_filter_run (f : FIR_FILTER_OBJECT) (c z : List ℚ) (xn : ℚ)
    (hc : f.pcoef = some c) (hz : f.pz = some z)
    (hmax : f.ncoef ≤ MAX_FIR_LENGTH) (hw : f.w < f.ncoef) :
    fir_filter xn (some f)
      = (∑ k ∈ Finset.range f.ncoef,
           c.getD k 0 * (z.set f.w xn).getD ((f.w + (f.ncoef - k)) % f.ncoef) 0,
         some { f with pz := some (z.set f.w xn), w := (f.w + 1) % f.ncoef }) := by
  have hng : ¬ (f.ncoef > MAX_FIR_LENGTH) := by omega
  rw [fir_filter]
  simp only [hng, if_false, hz, hc]
  rw [fir_filter_core]
  have hcv := firConvAux_eq c (z.set f.w xn) f.ncoef f.ncoef 0 f.w hw
  simp only [zero_add] at hcv
  have hw' : (if f.w + 1 = f.ncoef then 0 else f.w + 1) = (f.w + 1) % f.ncoef := by
    rcases Nat.lt_or_ge (f.w + 1) f.ncoef with h | h
    · rw [if_neg (by omega), Nat.mod_eq_of_lt h]
    · have h1 : f.w + 1 = f.ncoef := by omega
      rw [if_pos h1, h1, Nat.mod_self]
  dsimp only
  rw [hw', hcv]
  congr 1
  apply Finset.sum_congr rfl
  intro j hj
  rw [conv_index_eq f.ncoef f.w j (Finset.mem_range.mp hj)]

/-- Helper: the NULL-pointer error path of `fir_filter`. -/
theorem fir_filter_null (xn : ℚ) : fir_filter xn none = (0, none) := rfl

/-- Helper: the oversized-`ncoef` error path of `fir_filter`. -/
theorem fir_filter_oversized (xn : ℚ) (f : FIR_FILTER_OBJECT)
    (h : MAX_FIR_LENGTH < f.ncoef) : fir_filter xn (some f) = (0, some f) := by
  rw [fir_filter]
  simp [h]

/-- **C3.** For a FIR instance with non-null coefficient and delay-line
buffers and `1 ≤ ncoef ≤ MAX_FIR_LENGTH`, `fir_filter(xn, pfir)` writes `xn`
at the write cursor, advances the cursor by one with wraparound modulo
`ncoef`, and returns `y = Σ_{k<ncoef} coef[k] * s_k` where `s_k` is the `k`-th
most recently written sample (`s_k` lives at delay-line index
`(w + (ncoef - k)) % ncoef`, so coefficient `0` multiplies the sample just
written and coefficient `ncoef-1` the oldest one). -/
theorem fir_filter_convolution (f : FIR_FILTER_OBJECT) (c z : List ℚ) (xn : ℚ)
    (hc : f.pcoef = some c) (hz : f.pz = some z)
    (h1 : 1 ≤ f.ncoef) (hmax : f.ncoef ≤ MAX_FIR_LENGTH)
    (hzl : z.length = f.ncoef) (hw : f.w < f.ncoef) :
    fir_filter xn (some f)
      = (∑ k ∈ Finset.range f.ncoef,
           c.getD k 0 * (z.set f.w xn).getD ((f.w + (f.ncoef - k)) % f.ncoef) 0,
         some { f with pz := some (z.set f.w xn), w := (f.w + 1) % f.ncoef })
    ∧ (z.set f.w xn).getD ((f.w + (f.ncoef - 0)) % f.ncoef) 0 = xn := by
  refine ⟨fir_filter_run f c z xn hc hz hmax hw, ?_⟩
  have : f.w + (f.ncoef - 0) = f.w + f.ncoef := by omega
  rw [this, Nat.add_mod_right, Nat.mod_eq_of_lt hw]
  have hwl : f.w < z.length := by omega
  simp [List.getD_eq_getElem?_getD, List.getElem?_set_self hwl]

/-- Witness for `fir_filter_convolution` at a concrete 3-tap instance. -/
theorem fir_filter_convolution_witness :
    fir_filter 5 (some ⟨3, some [1, 2, 3], some [10, 20, 30], 1⟩)
      = (∑ k ∈ Finset.range 3,
           [(1:ℚ), 2, 3].getD k 0 *
             ([(10:ℚ), 20, 30].set 1 5).getD ((1 + (3 - k)) % 3) 0,
         some ⟨3, some [1, 2, 3], some (([10, 20, 30] : List ℚ).set 1 5), (1 + 1) % 3⟩)
    ∧ (([(10:ℚ), 20, 30].set 1 5)).getD ((1 + (3 - 0)) % 3) 0 = 5 :=
  fir_filter_convolution ⟨3, some [1, 2, 3], some [10, 20, 30], 1⟩ [1, 2, 3]
    [10, 20, 30] 5 rfl rfl (by decide) (by decide) (by decide) (by decide)

/-- **C7.** `fir_filter` returns `0.0` when the instance pointer is NULL or
when `ncoef > MAX_FIR_LENGTH`, and on these error paths the instance (delay
line and write cursor included) is returned exactly as it was. -/
theorem fir_filter_error_paths (xn : ℚ) (pf : Option FIR_FILTER_OBJECT)
    (h : pf = none ∨ ∃ f, pf = some f ∧ MAX_FIR_LENGTH < f.ncoef) :
    fir_filter xn pf = (0, pf) := by
  rcases h with h | ⟨f, rfl, hf⟩
  · subst h; exact fir_filter_null xn
  · exact fir_filter_oversized xn f hf

/-- Witness for `fir_filter_error_paths` on an oversized instance. -/
theorem fir_filter_error_paths_witness :
    fir_filter 7 (some ⟨MAX_FIR_LENGTH + 1, none, none, 0⟩)
      = (0, some ⟨MAX_FIR_LENGTH + 1, none, none, 0⟩) :=
  fir_filter_error_paths 7 (some ⟨MAX_FIR_LENGTH + 1, none, none, 0⟩)
    (Or.inr ⟨_, rfl, by decide⟩)

/-- **C2 counterexample.** The claim says `Get_Fir` fails with a sentinel for
`ncoef > MAX_FIR_LENGTH`.  The C code has no such check: at
`ncoef = MAX_FIR_LENGTH + 1 = 129` it still zero-fills `buffer[0..129)` and
returns a fully initialised instance with the write cursor at `buffer[0]` —
the exact shape the claim reserves for valid `ncoef`. -/
theorem Get_Fir_oversized_cex :
    Get_Fir (MAX_FIR_LENGTH + 1) (some [1]) (some (List.replicate 130 1)) =
      { ncoef := MAX_FIR_LENGTH + 1, pcoef := some [1],
        pz := some (List.replicate 129 0 ++ [1]), w := 0 } := by
  rfl

/-- **C2 (amended).** `Get_Fir` performs no validation of `ncoef`: for every
`ncoef` and non-null buffer it zero-fills `buffer[0..ncoef)` and returns an
instance whose write cursor starts at `buffer[0]`; an oversized `ncoef` is
only rejected later by `fir_filter`, which returns `0.0` and leaves the
instance untouched. -/
theorem Get_Fir_spec (ncoef : ℕ) (pc : Option (List ℚ)) (z : List ℚ) (xn : ℚ) :
    Get_Fir ncoef pc (some z)
      = { ncoef := ncoef, pcoef := pc,
          pz := some (List.replicate ncoef 0 ++ z.drop ncoef), w := 0 }
    ∧ (MAX_FIR_LENGTH < ncoef →
        fir_filter xn (some (Get_Fir ncoef pc (some z)))
          = (0, some (Get_Fir ncoef pc (some z)))) :=
  ⟨rfl, fun h => fir_filter_oversized xn _ h⟩

/-- Witness for `Get_Fir_spec` at `ncoef = 129`. -/
theorem Get_Fir_spec_witness :
    Get_Fir 129 none (some [1])
      = { ncoef := 129, pcoef := none,
          pz := some (List.replicate 129 0 ++ ([1]:List ℚ).drop 129), w := 0 }
    ∧ fir_filter 4 (some (Get_Fir 129 none (some [1])))
        = (0, some (Get_Fir 129 none (some [1]))) :=
  ⟨(Get_Fir_spec 129 none [1] 4).1, (Get_Fir_spec 129 none [1] 4).2 (by decide)⟩

/-! ## RT-momentos service pool (`rt_momentos.c`) -/

/-- `#define MAX_RT_MOMENTOS 4` from `rt_momentos.h`. -/
def MAX_RT_MOMENTOS : ℕ := 4

/-- `#define N_MA 64` from `rt_momentos.h`. -/
def N_MA : ℕ := 64

def RT_MOMENTOS_OK : ℤ := 0
def RT_MOMENTOS_KO : ℤ := -1
def NONE : ℤ := -1

/-- The `estado` enum: `FREE = 0`, `ASIGNED = 1`. -/
inductive estado where
  | FREE
  | ASIGNED
  deriving DecidableEq, Repr

/-- `BUFFER_Z`: write index plus circular buffer of `N_MA` samples. -/
structure BUFFER_Z where
  index_w : ℕ
  buffer_z : List ℚ
  deriving DecidableEq, Repr

/-- `BUFFER_FIR`: the four moving-average delay buffers of one service. -/
structure BUFFER_FIR where
  mu_z : BUFFER_Z
  sigma2_z : BUFFER_Z
  a_z : BUFFER_Z
  c_z : BUFFER_Z
  deriving DecidableEq, Repr

/-- `RT_MOMENTOS`: one service slot. -/
structure RT_MOMENTOS where
  status : estado
  mu : ℚ
  var2 : ℚ
  A : ℚ
  C : ℚ
  z_buffers : BUFFER_FIR
  deriving DecidableEq, Repr

/-- An all-zero `BUFFER_Z`. -/
def rtZeroBuffer : BUFFER_Z := ⟨0, List.replicate N_MA 0⟩

/-- The all-zero slot `(RT_MOMENTOS){0}` (status `FREE`). -/
def rtZeroSlot : RT_MOMENTOS :=
  ⟨estado.FREE, 0, 0, 0, 0, ⟨rtZeroBuffer, rtZeroBuffer, rtZeroBuffer, rtZeroBuffer⟩⟩

/-- The slot contents written by a successful `Suscribe_RT_Momentos`:
status `ASIGNED`, write indices `0`, buffers and moments zeroed. -/
def rtFreshSlot : RT_MOMENTOS := { rtZeroSlot with status := estado.ASIGNED }

/-- The static cursor increment with wraparound at `MAX_RT_MOMENTOS`. -/
def rtWrapInc (s : ℕ) : ℕ := if s + 1 = MAX_RT_MOMENTOS then 0 else s + 1

/-- The `while` loop of `Suscribe_RT_Momentos`: scan at most `fuel` slots
cyclically from `service`; on the first `FREE` slot, assign and initialise
it and return its index together with the advanced cursor.  The loop runs at
most `MAX_RT_MOMENTOS` probes (`checked` reaching `MAX_RT_MOMENTOS` sets
`estado = 2`), which is the initial `fuel`. -/
def Suscribe_scan (pool : ℕ → RT_MOMENTOS) :
    ℕ → ℕ → Option ℕ × (ℕ → RT_MOMENTOS) × ℕ
  | _service, 0 => (none, pool, _service)
  | service, fuel+1 =>
    if (pool service).status = estado.FREE then
      (some service, upd pool service rtFreshSlot, rtWrapInc service)
    else
      Suscribe_scan pool (rtWrapInc service) fuel

/-- `Suscribe_RT_Momentos`: returns the subscribed handle (or `NONE`), the
updated slot table and the updated static cursor. -/
def Suscribe_RT_Momentos (pool : ℕ → RT_MOMENTOS) (service : ℕ) :
    ℤ × (ℕ → RT_MOMENTOS) × ℕ :=
  match Suscribe_scan pool service MAX_RT_MOMENTOS with
  | (some h, p, c) => ((h : ℤ), p, c)
  | (none, p, c) => (NONE, p, c)

/-- `Unsuscribe_RT_Momentos(id_service)`: validates the range and that the
slot is `ASIGNED`; then wipes the whole slot (`(RT_MOMENTOS){0}`). -/
def Unsuscribe_RT_Momentos (pool : ℕ → RT_MOMENTOS) (id_service : ℤ) :
    ℤ × (ℕ → RT_MOMENTOS) :=
  if 0 ≤ id_service ∧ id_service < (MAX_RT_MOMENTOS : ℤ)
      ∧ (pool id_service.toNat).status = estado.ASIGNED then
    (RT_MOMENTOS_OK, upd pool id_service.toNat rtZeroSlot)
  else
    (RT_MOMENTOS_KO, pool)

/-! ### Lemmas about the subscription scan -/

/-- Position probed at step `k` of the cyclic scan started at `c`. -/
def rtCyc (c : ℕ) : ℕ → ℕ
  | 0 => c
  | k+1 => rtWrapInc (rtCyc c k)

theorem rtCyc_shift (c k : ℕ) : rtCyc (rtWrapInc c) k = rtCyc c (k+1) := by
  induction k with
  | zero => rfl
  | succ k ih =>
    simp only [rtCyc]
    rw [ih]
    rfl

theorem rtWrapInc_lt (c : ℕ) (h : c < MAX_RT_MOMENTOS) :
    rtWrapInc c < MAX_RT_MOMENTOS := by
  unfold rtWrapInc MAX_RT_MOMENTOS at *
  split <;> omega

theorem rtCyc_eq_mod (c k : ℕ) (h : c < MAX_RT_MOMENTOS) :
    rtCyc c k = (c + k) % MAX_RT_MOMENTOS := by
  induction k with
  | zero =>
    rw [rtCyc]
    unfold MAX_RT_MOMENTOS at *
    omega
  | succ k ih =>
    rw [rtCyc, ih]
    unfold rtWrapInc MAX_RT_MOMENTOS at *
    split <;> omega

theorem scan_none_pool (pool : ℕ → RT_MOMENTOS) :
    ∀ fuel c, (Suscribe_scan pool c fuel).1 = none →
      (Suscribe_scan pool c fuel).2.1 = pool ∧ (Suscribe_scan pool c fuel).2.2 = rtCyc c fuel := by
  intro fuel
  induction fuel with
  | zero => intro c _; exact ⟨rfl, rfl⟩
  | succ fuel ih =>
    intro c hnone
    rw [Suscribe_scan] at hnone ⊢
    by_cases hfree : (pool c).status = estado.FREE
    · rw [if_pos hfree] at hnone; exact absurd hnone (by simp)
    · rw [if_neg hfree] at hnone ⊢
      exact ⟨(ih _ hnone).1, by rw [(ih _ hnone).2, rtCyc_shift]⟩

theorem scan_none_all_asigned (pool : ℕ → RT_MOMENTOS) :
    ∀ fuel c, (Suscribe_scan pool c fuel).1 = none →
      ∀ k, k < fuel → (pool (rtCyc c k)).status = estado.ASIGNED := by
  intro fuel
  induction fuel with
  | zero => intro c _ k hk; omega
  | succ fuel ih =>
    intro c hnone k hk
    rw [Suscribe_scan] at hnone
    by_cases hfree : (pool c).status = estado.FREE
    · rw [if_pos hfree] at hnone; exact absurd hnone (by simp)
    · rw [if_neg hfree] at hnone
      match k with
      | 0 =>
        rw [rtCyc]
        cases h : (pool c).status with
        | FREE => exact absurd h hfree
        | ASIGNED => rfl
      | k+1 =>
        rw [← rtCyc_shift]
        exact ih (rtWrapInc c) hnone k (by omega)

theorem scan_found (pool : ℕ → RT_MOMENTOS) :
    ∀ fuel c h p c', Suscribe_scan pool c fuel = (some h, p, c') →
      (pool h).status = estado.FREE ∧ p = upd pool h rtFreshSlot
        ∧ (c < MAX_RT_MOMENTOS → h < MAX_RT_MOMENTOS) := by
  intro fuel
  induction fuel with
  | zero =>
    intro c h p c' heq
    simp [Suscribe_scan] at heq
  | succ fuel ih =>
    intro c h p c' heq
    rw [Suscribe_scan] at heq
    by_cases hfree : (pool c).status = estado.FREE
    · rw [if_pos hfree] at heq
      obtain ⟨rfl, rfl, rfl⟩ : c = h ∧ upd pool c rtFreshSlot = p ∧ rtWrapInc (c + 1 - 1) = c' := by
        simpa using heq
      exact ⟨hfree, rfl, fun hc => hc⟩
    · rw [if_neg hfree] at heq
      obtain ⟨h1, h2, h3⟩ := ih (rtWrapInc c) h p c' heq
      exact ⟨h1, h2, fun hc => h3 (rtWrapInc_lt c hc)⟩

theorem suscribe_finds_free (pool : ℕ → RT_MOMENTOS) (c j : ℕ)
    (hc : c < MAX_RT_MOMENTOS) (hj : j < MAX_RT_MOMENTOS)
    (hfree : (pool j).status = estado.FREE) :
    (Suscribe_scan pool c MAX_RT_MOMENTOS).1 ≠ none := by
  intro hnone
  have hall := scan_none_all_asigned pool MAX_RT_MOMENTOS c hnone
  have hk : (j + MAX_RT_MOMENTOS - c) % MAX_RT_MOMENTOS < MAX_RT_MOMENTOS := by
    unfold MAX_RT_MOMENTOS; omega
  have := hall _ hk
  rw [rtCyc_eq_mod _ _ hc] at this
  have hcyc : (c + (j + MAX_RT_MOMENTOS - c) % MAX_RT_MOMENTOS) % MAX_RT_MOMENTOS = j := by
    unfold MAX_RT_MOMENTOS at *
    omega
  rw [hcyc, hfree] at this
  exact absurd this (by simp)

theorem suscribe_none (pool : ℕ → RT_MOMENTOS) (c : ℕ)
    (h : (Suscribe_scan pool c MAX_RT_MOMENTOS).1 = none) :
    Suscribe_RT_Momentos pool c = (NONE, pool, rtCyc c MAX_RT_MOMENTOS) := by
  have hp := scan_none_pool pool MAX_RT_MOMENTOS c h
  rcases hsc : Suscribe_scan pool c MAX_RT_MOMENTOS with ⟨r, p, c'⟩
  rw [hsc] at h hp
  simp only at h hp
  subst h
  simp only [Suscribe_RT_Momentos, hsc]
  rw [hp.1, hp.2]

theorem suscribe_some (pool : ℕ → RT_MOMENTOS) (c k : ℕ) (p : ℕ → RT_MOMENTOS) (c' : ℕ)
    (h : Suscribe_scan pool c MAX_RT_MOMENTOS = (some k, p, c')) :
    Suscribe_RT_Momentos pool c = ((k : ℤ), p, c') := by
  simp only [Suscribe_RT_Momentos, h]

/-- The initial pool: `servicios_rt_momentos[MAX_RT_MOMENTOS] = {0}`. -/
def rtPool0 : ℕ → RT_MOMENTOS := fun _ => rtZeroSlot

def rtSub1 : ℤ × (ℕ → RT_MOMENTOS) × ℕ := Suscribe_RT_Momentos rtPool0 0
def rtSub2 : ℤ × (ℕ → RT_MOMENTOS) × ℕ := Suscribe_RT_Momentos rtSub1.2.1 rtSub1.2.2
def rtSub3 : ℤ × (ℕ → RT_MOMENTOS) × ℕ := Suscribe_RT_Momentos rtSub2.2.1 rtSub2.2.2
def rtSub4 : ℤ × (ℕ → RT_MOMENTOS) × ℕ := Suscribe_RT_Momentos rtSub3.2.1 rtSub3.2.2
def rtSub5 : ℤ × (ℕ → RT_MOMENTOS) × ℕ := Suscribe_RT_Momentos rtSub4.2.1 rtSub4.2.2

/-- **C8.** Starting from the all-`FREE` pool, the first `MAX_RT_MOMENTOS = 4`
subscriptions succeed with the pairwise distinct in-range handles
`0, 1, 2, 3`, and the fifth fails with the sentinel `NONE = -1` while leaving
every slot exactly as it was. -/
theorem rt_pool_exhaustion :
    rtSub1.1 = 0 ∧ rtSub2.1 = 1 ∧ rtSub3.1 = 2 ∧ rtSub4.1 = 3
    ∧ rtSub5.1 = NONE ∧ ∀ j, rtSub5.2.1 j = rtSub4.2.1 j := by
  have hnone : (Suscribe_scan rtSub4.2.1 rtSub4.2.2 MAX_RT_MOMENTOS).1 = none := by decide
  refine ⟨rfl, rfl, rfl, rfl, ?_, ?_⟩
  · show (Suscribe_RT_Momentos rtSub4.2.1 rtSub4.2.2).1 = NONE
    rw [suscribe_none _ _ hnone]
  · intro j
    show (Suscribe_RT_Momentos rtSub4.2.1 rtSub4.2.2).2.1 j = rtSub4.2.1 j
    rw [suscribe_none _ _ hnone]

/-- **C9.** `Unsuscribe_RT_Momentos` validates the handle: on an out-of-range
or already-`FREE` handle it returns `RT_MOMENTOS_KO` and changes nothing; on
an `ASIGNED` handle it wipes the slot to the all-zero `FREE` state leaving
other slots untouched, after which a subsequent subscription finds a free
slot and returns an in-range handle again — exactly the freed slot when all
other slots are still `ASIGNED`. -/
theorem rt_handle_lifecycle (pool : ℕ → RT_MOMENTOS) (id : ℤ) (c : ℕ) :
    (¬(0 ≤ id ∧ id < (MAX_RT_MOMENTOS : ℤ)
        ∧ (pool id.toNat).status = estado.ASIGNED) →
      Unsuscribe_RT_Momentos pool id = (RT_MOMENTOS_KO, pool))
    ∧ ((0 ≤ id ∧ id < (MAX_RT_MOMENTOS : ℤ)
        ∧ (pool id.toNat).status = estado.ASIGNED) →
      Unsuscribe_RT_Momentos pool id = (RT_MOMENTOS_OK, upd pool id.toNat rtZeroSlot)
      ∧ (upd pool id.toNat rtZeroSlot) id.toNat = rtZeroSlot
      ∧ (∀ j, j ≠ id.toNat → (upd pool id.toNat rtZeroSlot) j = pool j)
      ∧ (c < MAX_RT_MOMENTOS →
          0 ≤ (Suscribe_RT_Momentos (upd pool id.toNat rtZeroSlot) c).1
          ∧ (Suscribe_RT_Momentos (upd pool id.toNat rtZeroSlot) c).1 < (MAX_RT_MOMENTOS : ℤ))
      ∧ ((∀ j, j < MAX_RT_MOMENTOS → j ≠ id.toNat → (pool j).status = estado.ASIGNED) →
          c < MAX_RT_MOMENTOS →
          (Suscribe_RT_Momentos (upd pool id.toNat rtZeroSlot) c).1 = (id.toNat : ℤ))) := by
  constructor
  · intro h
    rw [Unsuscribe_RT_Momentos, if_neg h]
  · intro h
    have hid : id.toNat < MAX_RT_MOMENTOS := by omega
    have hfree : ((upd pool id.toNat rtZeroSlot) id.toNat).status = estado.FREE := by
      rw [upd_same]; rfl
    refine ⟨by rw [Unsuscribe_RT_Momentos, if_pos h], upd_same _ _ _,
      fun j hj => upd_ne _ _ _ _ hj, ?_, ?_⟩
    · intro hc
      have hne := suscribe_finds_free (upd pool id.toNat rtZeroSlot) c id.toNat hc hid hfree
      rcases hsc : Suscribe_scan (upd pool id.toNat rtZeroSlot) c MAX_RT_MOMENTOS
        with ⟨r, p, c'⟩
      match r with
      | none => exact absurd (by rw [hsc]) hne
      | some k =>
        obtain ⟨_, _, hk⟩ := scan_found (upd pool id.toNat rtZeroSlot)
          MAX_RT_MOMENTOS c k p c' hsc
        rw [suscribe_some _ _ _ _ _ hsc]
        refine ⟨by positivity, ?_⟩
        show ((k : ℤ)) < (MAX_RT_MOMENTOS : ℤ)
        exact_mod_cast hk hc
    · intro hall hc
      have hne := suscribe_finds_free (upd pool id.toNat rtZeroSlot) c id.toNat hc hid hfree
      rcases hsc : Suscribe_scan (upd pool id.toNat rtZeroSlot) c MAX_RT_MOMENTOS
        with ⟨r, p, c'⟩
      match r with
      | none => exact absurd (by rw [hsc]) hne
      | some k =>
        obtain ⟨hkfree, _, hk⟩ := scan_found (upd pool id.toNat rtZeroSlot)
          MAX_RT_MOMENTOS c k p c' hsc
        rw [suscribe_some _ _ _ _ _ hsc]
        by_cases hkid : k = id.toNat
        · rw [hkid]
        · have := hall k (hk hc) hkid
          rw [upd_ne _ _ _ _ hkid, this] at hkfree
          exact absurd hkfree (by simp)

/-- Witness for `rt_handle_lifecycle`: free slot 2 of a full pool, then
resubscribe and get slot 2 back. -/
theorem rt_handle_lifecycle_witness :
    Unsuscribe_RT_Momentos (fun _ => rtFreshSlot) 2
      = (RT_MOMENTOS_OK, upd (fun _ => rtFreshSlot) 2 rtZeroSlot)
    ∧ (Suscribe_RT_Momentos (upd (fun _ => rtFreshSlot) 2 rtZeroSlot) 0).1 = 2 := by
  have h := (rt_handle_lifecycle (fun _ => rtFreshSlot) 2 0).2
    ⟨by norm_num, by norm_num [MAX_RT_MOMENTOS], rfl⟩
  exact ⟨h.1, by simpa using h.2.2.2.2 (fun j _ _ => rfl) (by norm_num [MAX_RT_MOMENTOS])⟩

/-! ## Lagrange half-band generator (`lagrange_halfband.c`) -/

def LAGRANGE_OK : ℤ := 0
def LAGRANGE_KO : ℤ := -1

/-- `factorial(n)`: returns `0` for negative `n`; otherwise the iterative
product `result *= i` for `i = 2..n`, which is `n!`. -/
def factorial (n : ℤ) : ℕ := if n < 0 then 0 else Nat.factorial n.toNat

/-- The product `Π_{k=1..2m} (m - k + 1/2)` recomputed inside each iteration
of the `l` loop of `lagrange_halfband`. -/
def productorio (m : ℕ) : ℚ := ∏ k ∈ Finset.range (2*m), ((m : ℚ) - (k+1) + 1/2)

/-- The coefficient `hm` computed by `lagrange_halfband` for a given `l`:
sign `(-1)^(l+m-1)` (via the parity test on `l+m-1`), times the product,
divided by `(m-l)! * (m-1+l)! * (2l-1)`. -/
def hmval (m l : ℕ) : ℚ :=
  (if ((l : ℤ) + m - 1) % 2 = 0 then (1:ℚ) else -1) * productorio m /
    ((factorial ((m:ℤ) - l) : ℚ) * (factorial ((m:ℤ) - 1 + l) : ℚ) * (2*(l:ℚ) - 1))

/-- One iteration of the `l` loop: assign `hm` symmetrically to positions
`center + (2l-1)` and `center - (2l-1)`, with the same bounds guards as the
C code. -/
def lagAssign (m : ℕ) (buf : ℕ → ℚ) (l : ℕ) : ℕ → ℚ :=
  let orden : ℤ := 4*m - 1
  let center : ℤ := 2*m - 1
  let hm := hmval m l
  let pos : ℤ := center + (2*l - 1)
  let neg : ℤ := center - (2*(l:ℤ) - 1)
  let buf1 := if pos < orden then upd buf pos.toNat hm else buf
  if 0 ≤ neg then upd buf1 neg.toNat hm else buf1

/-- `lagrange_halfband(m, h0)`: validates `m ≥ 1` and a non-NULL buffer;
zero-fills `h0[0..4m-1)`, sets the centre tap to `1/2`, then runs the `l`
loop for `l = 1..m`.  On failure returns `LAGRANGE_KO` without writing. -/
def lagrange_halfband (m : ℤ) (h0 : Option (ℕ → ℚ)) : ℤ × Option (ℕ → ℚ) :=
  match h0 with
  | none => (LAGRANGE_KO, none)
  | some buf =>
    if m < 1 then (LAGRANGE_KO, some buf)
    else
      let orden := (4*m - 1).toNat
      let center := (2*m - 1).toNat
      let buf0 : ℕ → ℚ := fun k => if k < orden then 0 else buf k
      let buf1 := upd buf0 center (1/2)
      let buf2 := ((List.range m.toNat).map (· + 1)).foldl (lagAssign m.toNat) buf1
      (LAGRANGE_OK, some buf2)

/-! ### Structure of the generated coefficients -/

/-- Normal form of `lagAssign` for in-range `l`: both guards hold and the
write positions are `2m-2+2l` and `2m-2l`. -/
theorem lagAssign_eq (m l : ℕ) (hl1 : 1 ≤ l) (hlm : l ≤ m) (buf : ℕ → ℚ) :
    lagAssign m buf l
      = upd (upd buf (2*m - 2 + 2*l) (hmval m l)) (2*m - 2*l) (hmval m l) := by
  have hpos : ((2*(m:ℤ) - 1) + (2*(l:ℤ) - 1) < 4*(m:ℤ) - 1) := by omega
  have hneg : (0 ≤ 2*(m:ℤ) - 1 - (2*(l:ℤ) - 1)) := by omega
  unfold lagAssign
  simp only [if_pos hpos, if_pos hneg]
  have h1 : ((2*(m:ℤ) - 1) + (2*(l:ℤ) - 1)).toNat = 2*m - 2 + 2*l := by omega
  have h2 : ((2*(m:ℤ) - 1) - (2*(l:ℤ) - 1)).toNat = 2*m - 2*l := by omega
  rw [h1, h2]

/-- Symmetry of a buffer on its first `n` entries. -/
def SymN (n : ℕ) (f : ℕ → ℚ) : Prop := ∀ i, i < n → f i = f (n - 1 - i)

theorem upd_upd_apply (f : ℕ → ℚ) (p q x : ℕ) (v : ℚ) :
    upd (upd f p v) q v x = if x = q then v else if x = p then v else f x := rfl

theorem upd_pair_sym (n p q : ℕ) (v : ℚ) (f : ℕ → ℚ) (hf : SymN n f)
    (hp : p < n) (hq : q = n - 1 - p) : SymN n (upd (upd f p v) q v) := by
  intro i hi
  rw [upd_upd_apply, upd_upd_apply]
  split_ifs with h1 h2 h3 h4 h5 h6 h7 h8 <;>
    first
      | rfl
      | (exfalso; omega)
      | (exact hf i hi)

theorem lag_fold_sym (m : ℕ) (hm : 1 ≤ m) (ls : List ℕ)
    (hmem : ∀ l ∈ ls, 1 ≤ l ∧ l ≤ m) :
    ∀ f : ℕ → ℚ, SymN (4*m-1) f → SymN (4*m-1) (ls.foldl (lagAssign m) f) := by
  induction ls with
  | nil => intro f hf; exact hf
  | cons l t ih =>
    intro f hf
    have hl := hmem l (List.mem_cons_self l t)
    rw [List.foldl_cons, lagAssign_eq m l hl.1 hl.2]
    apply ih (fun x hx => hmem x (List.mem_cons_of_mem l hx))
    apply upd_pair_sym _ _ _ _ _ hf
    · omega
    · omega

theorem lag_fold_center (m : ℕ) (hm : 1 ≤ m) (ls : List ℕ)
    (hmem : ∀ l ∈ ls, 1 ≤ l ∧ l ≤ m) :
    ∀ f : ℕ → ℚ, (ls.foldl (lagAssign m) f) (2*m-1) = f (2*m-1) := by
  induction ls with
  | nil => intro f; rfl
  | cons l t ih =>
    intro f
    have hl := hmem l (List.mem_cons_self l t)
    rw [List.foldl_cons, lagAssign_eq m l hl.1 hl.2,
      ih (fun x hx => hmem x (List.mem_cons_of_mem l hx))]
    rw [upd_ne _ _ _ _ (by omega), upd_ne _ _ _ _ (by omega)]

theorem lag_range_mem (m : ℕ) : ∀ l ∈ (List.range m).map (· + 1), 1 ≤ l ∧ l ≤ m := by
  intro l hl
  simp only [List.mem_map, List.mem_range] at hl
  obtain ⟨j, hj, rfl⟩ := hl
  omega

theorem lag_base_sym (m : ℕ) (hm : 1 ≤ m) (buf : ℕ → ℚ) :
    SymN (4*m-1)
      (upd (fun k => if k < 4*m-1 then (0:ℚ) else buf k) (2*m-1) (1/2)) := by
  intro i hi
  have hj : 4*m-1-1-i < 4*m-1 := by omega
  simp only [upd]
  by_cases hc : i = 2*m-1
  · have hc2 : 4*m-1-1-i = 2*m-1 := by omega
    rw [if_pos hc, if_pos hc2]
  · have hc2 : 4*m-1-1-i ≠ 2*m-1 := by omega
    rw [if_neg hc, if_neg hc2, if_pos hi, if_pos hj]

/-- **C4.** For every `m ≥ 1` and non-null buffer, `lagrange_halfband`
returns `LAGRANGE_OK` and produces `N = 4m-1` coefficients symmetric about
the centre (`h0[i] = h0[N-1-i]`) with centre tap `h0[2m-1] = 1/2`; for
`m < 1` or a NULL buffer it returns `LAGRANGE_KO` and writes nothing. -/
theorem lagrange_halfband_spec (m : ℤ) (buf : ℕ → ℚ) :
    (1 ≤ m →
      (lagrange_halfband m (some buf)).1 = LAGRANGE_OK
      ∧ ∃ h : ℕ → ℚ, (lagrange_halfband m (some buf)).2 = some h
          ∧ (∀ i, i < (4*m - 1).toNat → h i = h ((4*m - 1).toNat - 1 - i))
          ∧ h (2*m - 1).toNat = 1/2)
    ∧ (m < 1 → lagrange_halfband m (some buf) = (LAGRANGE_KO, some buf))
    ∧ lagrange_halfband m none = (LAGRANGE_KO, none) := by
  refine ⟨?_, fun h => by rw [lagrange_halfband, if_pos h], rfl⟩
  intro hm
  rw [lagrange_halfband, if_neg (by omega)]
  have hM : 1 ≤ m.toNat := by omega
  have horden : (4*m - 1).toNat = 4*m.toNat - 1 := by omega
  have hcenter : (2*m - 1).toNat = 2*m.toNat - 1 := by omega
  refine ⟨rfl, _, rfl, ?_, ?_⟩
  · intro i hi
    rw [horden] at hi ⊢
    rw [hcenter]
    exact lag_fold_sym m.toNat hM _ (lag_range_mem m.toNat) _
      (by rw [← hcenter, ← horden]; exact (by rw [horden, hcenter]; exact lag_base_sym m.toNat hM buf))
      i hi
  · rw [hcenter]
    rw [lag_fold_center m.toNat hM _ (lag_range_mem m.toNat)]
    rw [← hcenter]
    exact upd_same _ _ _

/-- Witness for `lagrange_halfband_spec` at `m = 2`. -/
theorem lagrange_halfband_spec_witness :
    ((lagrange_halfband 2 (some (fun _ => 7))).1 = LAGRANGE_OK
      ∧ ∃ h : ℕ → ℚ, (lagrange_halfband 2 (some (fun _ => (7:ℚ)))).2 = some h
          ∧ (∀ i, i < ((4*2 - 1 : ℤ)).toNat → h i = h ((4*2 - 1 : ℤ).toNat - 1 - i))
          ∧ h (2*2 - 1 : ℤ).toNat = 1/2)
    ∧ lagrange_halfband 2 none = (LAGRANGE_KO, none) :=
  ⟨(lagrange_halfband_spec 2 (fun _ => 7)).1 (by norm_num),
   (lagrange_halfband_spec 2 (fun _ => 7)).2.2⟩

/-! ### DC gain: sum of the generated coefficients -/

theorem sum_range_upd (f : ℕ → ℚ) (n p : ℕ) (v : ℚ) (hp : p < n) :
    ∑ i ∈ Finset.range n, upd f p v i = (∑ i ∈ Finset.range n, f i) - f p + v := by
  have hpm : p ∈ Finset.range n := Finset.mem_range.mpr hp
  rw [← Finset.add_sum_erase _ (upd f p v) hpm, ← Finset.add_sum_erase _ f hpm]
  rw [upd_same]
  rw [Finset.sum_congr rfl
    (fun x hx => upd_ne f p x v (Finset.ne_of_mem_erase hx))]
  ring

theorem lag_fold_sum (m : ℕ) (hm : 1 ≤ m) (ls : List ℕ) :
    ∀ f : ℕ → ℚ,
      (∀ l ∈ ls, 1 ≤ l ∧ l ≤ m) → ls.Nodup →
      (∀ l ∈ ls, f (2*m - 2 + 2*l) = 0 ∧ f (2*m - 2*l) = 0) →
      ∑ i ∈ Finset.range (4*m-1), (ls.foldl (lagAssign m) f) i
        = (∑ i ∈ Finset.range (4*m-1), f i) + 2 * (ls.map (hmval m)).sum := by
  induction ls with
  | nil => intro f _ _ _; simp
  | cons l t ih =>
    intro f hmem hnd hz
    have hl := hmem l (List.mem_cons_self l t)
    have hzl := hz l (List.mem_cons_self l t)
    have hmem' : ∀ x ∈ t, 1 ≤ x ∧ x ≤ m := fun x hx => hmem x (List.mem_cons_of_mem l hx)
    have hnd' : t.Nodup := (List.nodup_cons.mp hnd).2
    have hlnotin : l ∉ t := (List.nodup_cons.mp hnd).1
    rw [List.foldl_cons, lagAssign_eq m l hl.1 hl.2]
    have hz' : ∀ x ∈ t,
        (upd (upd f (2*m-2+2*l) (hmval m l)) (2*m-2*l) (hmval m l)) (2*m - 2 + 2*x) = 0
        ∧ (upd (upd f (2*m-2+2*l) (hmval m l)) (2*m-2*l) (hmval m l)) (2*m - 2*x) = 0 := by
      intro x hx
      have hxx := hmem' x hx
      have hxl : x ≠ l := fun he => hlnotin (he ▸ hx)
      constructor
      · rw [upd_ne _ _ _ _ (by omega), upd_ne _ _ _ _ (by omega)]
        exact (hz x (List.mem_cons_of_mem l hx)).1
      · rw [upd_ne _ _ _ _ (by omega), upd_ne _ _ _ _ (by omega)]
        exact (hz x (List.mem_cons_of_mem l hx)).2
    rw [ih _ hmem' hnd' hz']
    rw [sum_range_upd _ _ _ _ (show 2*m-2*l < 4*m-1 by omega),
        sum_range_upd _ _ _ _ (show 2*m-2+2*l < 4*m-1 by omega)]
    rw [upd_ne _ _ _ _ (by omega : 2*m-2*l ≠ 2*m-2+2*l), hzl.1, hzl.2]
    rw [List.map_cons, List.sum_cons]
    ring

theorem lag_base_sum (m : ℕ) (hm : 1 ≤ m) (buf : ℕ → ℚ) :
    ∑ i ∈ Finset.range (4*m-1),
      (upd (fun k => if k < 4*m-1 then (0:ℚ) else buf k) (2*m-1) (1/2)) i = 1/2 := by
  rw [sum_range_upd _ _ _ _ (show 2*m-1 < 4*m-1 by omega)]
  rw [Finset.sum_eq_zero (fun i hi => by
    show (if i < 4*m-1 then (0:ℚ) else buf i) = 0
    rw [if_pos (Finset.mem_range.mp hi)])]
  rw [if_pos (show 2*m-1 < 4*m-1 by omega)]
  norm_num

theorem list_range_map_sum (g : ℕ → ℚ) (n : ℕ) :
    ((List.range n).map g).sum = ∑ j ∈ Finset.range n, g j := by
  induction n with
  | zero => simp
  | succ n ih =>
    rw [List.range_succ, List.map_append, List.sum_append, Finset.sum_range_succ, ih]
    simp

/-! ### The partial-fraction identity behind the DC gain -/

/-- Classical identity: `Σ_{i≤n} (-1)^i C(n,i)/(x+i) = n! / Π_{k≤n} (x+k)`. -/
theorem pfrac (n : ℕ) : ∀ x : ℚ, (∀ k, k ≤ n → x + k ≠ 0) →
    ∑ i ∈ Finset.range (n+1), (-1:ℚ)^i * ((n.choose i : ℕ) : ℚ) / (x + i)
      = ((n.factorial : ℕ) : ℚ) / ∏ k ∈ Finset.range (n+1), (x + k) := by
  induction n with
  | zero =>
    intro x hx
    simp [Finset.sum_range_one, Finset.prod_range_one, Nat.choose]
  | succ n ih =>
    intro x hx
    have hx0 : x ≠ 0 := by simpa using hx 0 (by omega)
    have hxn1 : x + ((n:ℚ) + 1) ≠ 0 := by
      have := hx (n+1) (by omega)
      push_cast at this
      exact this
    have hx' : ∀ k, k ≤ n → (x+1) + k ≠ 0 := by
      intro k hk
      have h := hx (k+1) (by omega)
      push_cast at h
      intro hc
      exact h (by linear_combination hc)
    have hxk : ∀ k, k ≤ n → x + k ≠ 0 := fun k hk => hx k (by omega)
    have hP : (∏ k ∈ Finset.range (n+1), (x + k)) ≠ 0 :=
      Finset.prod_ne_zero_iff.mpr (fun k hk => hxk k (by
        simpa using Nat.lt_succ_iff.mp (Finset.mem_range.mp hk)))
    have hQ : (∏ k ∈ Finset.range (n+1), ((x+1) + k)) ≠ 0 :=
      Finset.prod_ne_zero_iff.mpr (fun k hk => hx' k (by
        simpa using Nat.lt_succ_iff.mp (Finset.mem_range.mp hk)))
    -- split the sum with Pascal's rule
    have key : ∑ i ∈ Finset.range (n+2), (-1:ℚ)^i * (((n+1).choose i : ℕ) : ℚ) / (x + i)
        = (∑ i ∈ Finset.range (n+1), (-1:ℚ)^i * ((n.choose i : ℕ) : ℚ) / (x + i))
          - ∑ i ∈ Finset.range (n+1), (-1:ℚ)^i * ((n.choose i : ℕ) : ℚ) / ((x+1) + i) := by
      rw [Finset.sum_range_succ']
      have hsplit : ∀ i ∈ Finset.range (n+1),
          (-1:ℚ)^(i+1) * (((n+1).choose (i+1) : ℕ) : ℚ) / (x + ((i:ℚ)+1))
            = ((-1:ℚ)^(i+1) * ((n.choose i : ℕ) : ℚ) / (x + ((i:ℚ)+1)))
              + ((-1:ℚ)^(i+1) * ((n.choose (i+1) : ℕ) : ℚ) / (x + ((i:ℚ)+1))) := by
        intro i _
        have hpascal : (((n+1).choose (i+1) : ℕ) : ℚ)
            = ((n.choose i : ℕ) : ℚ) + ((n.choose (i+1) : ℕ) : ℚ) := by
          exact_mod_cast congrArg Nat.cast (Nat.choose_succ_succ n i)
        rw [hpascal]
        ring
      rw [Finset.sum_congr rfl (by
        intro i hi
        push_cast
        exact hsplit i hi)]
      rw [Finset.sum_add_distrib]
      -- first piece is -Σ over (x+1); second reindexes to Σ over x minus the i=0 term
      have hA : ∑ i ∈ Finset.range (n+1), (-1:ℚ)^(i+1) * ((n.choose i : ℕ) : ℚ) / (x + ((i:ℚ)+1))
          = - ∑ i ∈ Finset.range (n+1), (-1:ℚ)^i * ((n.choose i : ℕ) : ℚ) / ((x+1) + i) := by
        rw [← Finset.sum_neg_distrib]
        apply Finset.sum_congr rfl
        intro i _
        rw [pow_succ]
        have : x + ((i:ℚ)+1) = (x+1) + i := by ring
        rw [this]
        ring
      have hB : ∑ i ∈ Finset.range (n+1), (-1:ℚ)^(i+1) * ((n.choose (i+1) : ℕ) : ℚ) / (x + ((i:ℚ)+1))
          = (∑ i ∈ Finset.range (n+1), (-1:ℚ)^i * ((n.choose i : ℕ) : ℚ) / (x + i)) - 1/x := by
        have hstep : ∑ i ∈ Finset.range (n+2), (-1:ℚ)^i * ((n.choose i : ℕ) : ℚ) / (x + i)
            = (∑ i ∈ Finset.range (n+1), (-1:ℚ)^(i+1) * ((n.choose (i+1) : ℕ) : ℚ) / (x + ((i:ℚ)+1)))
              + 1/x := by
          rw [Finset.sum_range_succ']
          congr 1
          · apply Finset.sum_congr rfl
            intro i _
            push_cast
            ring_nf
          · simp [Nat.choose]
        have hlast : ∑ i ∈ Finset.range (n+2), (-1:ℚ)^i * ((n.choose i : ℕ) : ℚ) / (x + i)
            = ∑ i ∈ Finset.range (n+1), (-1:ℚ)^i * ((n.choose i : ℕ) : ℚ) / (x + i) := by
          rw [Finset.sum_range_succ]
          rw [Nat.choose_eq_zero_of_lt (by omega)]
          simp
        rw [hlast] at hstep
        linarith
      rw [hA, hB]
      rw [Nat.choose_zero_right]
      push_cast
      ring
    rw [show n+1+1 = n+2 from rfl, key, ih x hxk, ih (x+1) hx']
    -- now pure algebra on the products
    have hR1 : ∏ k ∈ Finset.range (n+2), (x + k)
        = (∏ k ∈ Finset.range (n+1), (x + k)) * (x + ((n:ℚ)+1)) := by
      rw [Finset.prod_range_succ]
      push_cast
      ring
    have hR2 : ∏ k ∈ Finset.range (n+2), (x + k)
        = (∏ k ∈ Finset.range (n+1), ((x+1) + k)) * x := by
      rw [Finset.prod_range_succ']
      congr 1
      · apply Finset.prod_congr rfl
        intro k _
        push_cast
        ring
      · norm_num
    have hPQ : (∏ k ∈ Finset.range (n+1), (x + k)) * (x + ((n:ℚ)+1))
        = (∏ k ∈ Finset.range (n+1), ((x+1) + k)) * x := by
      rw [← hR1, hR2]
    have hfact : (((n+1).factorial : ℕ) : ℚ) = ((n:ℚ)+1) * ((n.factorial : ℕ) : ℚ) := by
      rw [Nat.factorial_succ]
      push_cast
      ring
    rw [hR1, hfact]
    rw [div_sub_div _ _ hP hQ, div_eq_div_iff (mul_ne_zero hP hQ) (mul_ne_zero hP hxn1)]
    linear_combination (-(((n.factorial : ℕ) : ℚ) * (∏ k ∈ Finset.range (n+1), (x + k)))) * hPQ

/-- The half-integer evaluation point `x = -(2M-1)/2` of the partial
fraction identity used for the DC gain. -/
def lagX (M : ℕ) : ℚ := -(((2*M - 1 : ℕ) : ℚ))/2

theorem lagX_eq (M : ℕ) (hM : 1 ≤ M) : lagX M = -(2*(M:ℚ) - 1)/2 := by
  unfold lagX
  rw [Nat.cast_sub (by omega : 1 ≤ 2*M)]
  push_cast
  ring

theorem lagX_add_ne (M : ℕ) (hM : 1 ≤ M) (k : ℕ) : lagX M + k ≠ 0 := by
  rw [lagX_eq M hM]
  intro h
  have h2 : (2*(M:ℚ) - 1) = 2*k := by linear_combination (-2)*h
  have h3 : ((2*M - 1 : ℕ) : ℚ) = ((2*k : ℕ) : ℚ) := by
    rw [Nat.cast_sub (by omega : 1 ≤ 2*M)]
    push_cast
    linear_combination h2
  have : (2*M - 1 : ℕ) = 2*k := Nat.cast_injective h3
  omega

theorem lagP_eq (M : ℕ) (hM : 1 ≤ M) :
    ∏ k ∈ Finset.range (2*M), (lagX M + k) = productorio M := by
  unfold productorio
  rw [Finset.prod_congr rfl (show ∀ k ∈ Finset.range (2*M),
      lagX M + k = (-1) * ((M:ℚ) - (k+1) + 1/2) from by
    intro k _
    rw [lagX_eq M hM]
    ring)]
  rw [Finset.prod_mul_distrib, Finset.prod_const, Finset.card_range]
  rw [Even.neg_one_pow (even_two_mul M)]
  ring

theorem lagP_ne (M : ℕ) (hM : 1 ≤ M) : productorio M ≠ 0 := by
  rw [← lagP_eq M hM]
  exact Finset.prod_ne_zero_iff.mpr (fun k _ => lagX_add_ne M hM k)

theorem lag_full_sum (M : ℕ) (hM : 1 ≤ M) :
    ∑ i ∈ Finset.range (2*M), (-1:ℚ)^i * (((2*M-1).choose i : ℕ) : ℚ) / (lagX M + i)
      = (((2*M-1).factorial : ℕ) : ℚ) / productorio M := by
  have h := pfrac (2*M-1) (lagX M) (fun k _ => lagX_add_ne M hM k)
  rw [show 2*M-1+1 = 2*M from by omega] at h
  rw [h, lagP_eq M hM]

theorem neg_one_pow_rev (M i : ℕ) (hM : 1 ≤ M) (hi : i < 2*M) :
    (-1:ℚ)^(2*M-1-i) = -(-1:ℚ)^i := by
  have h1 : (-1:ℚ)^(2*M-1-i) * (-1:ℚ)^i = (-1:ℚ)^(2*M-1) := by
    rw [← pow_add]
    congr 1
    omega
  have h2 : ((-1:ℚ)^(2*M-1)) = -1 := Odd.neg_one_pow ⟨M-1, by omega⟩
  have h3 : (-1:ℚ)^i * (-1:ℚ)^i = 1 := by
    rw [← pow_add]
    exact Even.neg_one_pow ⟨i, rfl⟩
  calc (-1:ℚ)^(2*M-1-i) = (-1:ℚ)^(2*M-1-i) * ((-1:ℚ)^i * (-1:ℚ)^i) := by rw [h3, mul_one]
  _ = ((-1:ℚ)^(2*M-1-i) * (-1:ℚ)^i) * (-1:ℚ)^i := by ring
  _ = (-1) * (-1:ℚ)^i := by rw [h1, h2]
  _ = -(-1:ℚ)^i := by ring

theorem lag_pair (M i : ℕ) (hM : 1 ≤ M) (hi : i < M) :
    (-1:ℚ)^(2*M-1-i) * (((2*M-1).choose (2*M-1-i) : ℕ) : ℚ) / (lagX M + ((2*M-1-i : ℕ) : ℚ))
      = (-1:ℚ)^i * (((2*M-1).choose i : ℕ) : ℚ) / (lagX M + i) := by
  have hle : i ≤ 2*M-1 := by omega
  rw [Nat.choose_symm hle]
  rw [neg_one_pow_rev M i hM (by omega)]
  have hcast : ((2*M-1-i : ℕ) : ℚ) = 2*(M:ℚ) - 1 - i := by
    rw [Nat.cast_sub hle, Nat.cast_sub (by omega : 1 ≤ 2*M)]
    push_cast
    ring
  rw [hcast, lagX_eq M hM]
  rw [show -(((-1:ℚ))^i) * (((2*M-1).choose i : ℕ) : ℚ)
      = -((((-1:ℚ))^i) * (((2*M-1).choose i : ℕ) : ℚ)) from by ring]
  rw [show -(2*(M:ℚ) - 1)/2 + (2*(M:ℚ) - 1 - i)
      = -(-(2*(M:ℚ) - 1)/2 + i) from by ring]
  rw [neg_div_neg_eq]

theorem lag_half_sum (M : ℕ) (hM : 1 ≤ M) :
    ∑ i ∈ Finset.range (2*M), (-1:ℚ)^i * (((2*M-1).choose i : ℕ) : ℚ) / (lagX M + i)
      = 2 * ∑ i ∈ Finset.range M, (-1:ℚ)^i * (((2*M-1).choose i : ℕ) : ℚ) / (lagX M + i) := by
  have hsplit := Finset.sum_range_add
    (fun i => (-1:ℚ)^i * (((2*M-1).choose i : ℕ) : ℚ) / (lagX M + i)) M M
  rw [show M + M = 2*M from by omega] at hsplit
  have hrefl : ∑ i ∈ Finset.range M,
      (-1:ℚ)^(M+i) * (((2*M-1).choose (M+i) : ℕ) : ℚ) / (lagX M + ((M+i : ℕ) : ℚ))
        = ∑ i ∈ Finset.range M,
      (-1:ℚ)^i * (((2*M-1).choose i : ℕ) : ℚ) / (lagX M + i) := by
    rw [← Finset.sum_range_reflect (fun i =>
      (-1:ℚ)^(M+i) * (((2*M-1).choose (M+i) : ℕ) : ℚ) / (lagX M + ((M+i : ℕ) : ℚ))) M]
    apply Finset.sum_congr rfl
    intro i hi
    have him : i < M := Finset.mem_range.mp hi
    have hidx : M + (M - 1 - i) = 2*M-1-i := by omega
    rw [hidx]
    exact lag_pair M i hM him
  rw [hsplit, hrefl]
  ring

theorem signIte (n : ℕ) : (if ((n:ℤ)) % 2 = 0 then (1:ℚ) else -1) = (-1:ℚ)^n := by
  rcases Nat.even_or_odd n with he | ho
  · rw [if_pos (by obtain ⟨k, hk⟩ := he; omega), he.neg_one_pow]
  · rw [if_neg (by obtain ⟨k, hk⟩ := ho; omega), ho.neg_one_pow]

theorem lag_term_eq (M i : ℕ) (hM : 1 ≤ M) (hi : i < M) :
    hmval M (M-i)
      = productorio M / (2 * (((2*M-1).factorial : ℕ) : ℚ))
        * ((-1:ℚ)^i * (((2*M-1).choose i : ℕ) : ℚ) / (lagX M + i)) := by
  unfold hmval
  have hsign : (if ((((M-i : ℕ)):ℤ) + (M:ℤ) - 1) % 2 = 0 then (1:ℚ) else -1)
      = -(-1:ℚ)^i := by
    rw [show ((((M-i : ℕ)):ℤ) + (M:ℤ) - 1) % 2 = (((2*M-1-i : ℕ)):ℤ) % 2 from by omega]
    rw [signIte (2*M-1-i)]
    exact neg_one_pow_rev M i hM (by omega)
  have hf1 : factorial ((M:ℤ) - ((M-i : ℕ) : ℤ)) = i.factorial := by
    unfold factorial
    rw [show (M:ℤ) - ((M-i : ℕ) : ℤ) = ((i:ℕ):ℤ) from by omega]
    rw [if_neg (by omega), Int.toNat_natCast]
  have hf2 : factorial ((M:ℤ) - 1 + ((M-i : ℕ) : ℤ)) = (2*M-1-i).factorial := by
    unfold factorial
    rw [show (M:ℤ) - 1 + ((M-i : ℕ) : ℤ) = (((2*M-1-i : ℕ)):ℤ) from by omega]
    rw [if_neg (by omega), Int.toNat_natCast]
  have hden : (2*(((M-i : ℕ)):ℚ) - 1) = -2 * (lagX M + i) := by
    rw [Nat.cast_sub hi.le, lagX_eq M hM]
    ring
  rw [hsign, hf1, hf2, hden]
  have hxne := lagX_add_ne M hM i
  have hfi : ((i.factorial : ℕ) : ℚ) ≠ 0 := Nat.cast_ne_zero.mpr (Nat.factorial_ne_zero i)
  have hf2M : (((2*M-1-i).factorial : ℕ) : ℚ) ≠ 0 :=
    Nat.cast_ne_zero.mpr (Nat.factorial_ne_zero _)
  have hFne : (((2*M-1).factorial : ℕ) : ℚ) ≠ 0 :=
    Nat.cast_ne_zero.mpr (Nat.factorial_ne_zero _)
  have hcf : (((2*M-1).choose i : ℕ) : ℚ) * ((i.factorial : ℕ) : ℚ)
      * (((2*M-1-i).factorial : ℕ) : ℚ) = (((2*M-1).factorial : ℕ) : ℚ) := by
    exact_mod_cast congrArg Nat.cast
      (Nat.choose_mul_factorial_mul_factorial (show i ≤ 2*M-1 by omega))
  field_simp
  linear_combination (-(2 * productorio M * (-1:ℚ)^i * (lagX M + (i:ℚ)))) * hcf

theorem lag_code_sum (M : ℕ) (hM : 1 ≤ M) :
    ∑ j ∈ Finset.range M, hmval M (j+1) = 1/4 := by
  have hrefl : ∑ j ∈ Finset.range M, hmval M (j+1)
      = ∑ i ∈ Finset.range M, hmval M (M-i) := by
    rw [← Finset.sum_range_reflect (fun j => hmval M (j+1)) M]
    apply Finset.sum_congr rfl
    intro i hi
    congr 1
    have := Finset.mem_range.mp hi
    omega
  rw [hrefl]
  rw [Finset.sum_congr rfl (fun i hi => lag_term_eq M i hM (Finset.mem_range.mp hi))]
  rw [← Finset.mul_sum]
  have hg : ∑ i ∈ Finset.range M,
      (-1:ℚ)^i * (((2*M-1).choose i : ℕ) : ℚ) / (lagX M + i)
        = (((2*M-1).factorial : ℕ) : ℚ) / productorio M / 2 := by
    have hfull := lag_full_sum M hM
    rw [lag_half_sum M hM] at hfull
    linarith
  rw [hg]
  have hP := lagP_ne M hM
  have hF : (((2*M-1).factorial : ℕ) : ℚ) ≠ 0 :=
    Nat.cast_ne_zero.mpr (Nat.factorial_ne_zero _)
  field_simp
  ring

/-- **C5.** For every `m ≥ 1` the `N = 4m-1` coefficients produced by
`lagrange_halfband` (centre tap `1/2` plus the symmetric pairs from the
product/factorial closed form), evaluated in exact rational arithmetic, sum
to exactly `1`: the half-band low-pass filter has DC gain `1`. -/
theorem lagrange_dc_gain (m : ℤ) (buf : ℕ → ℚ) (hm : 1 ≤ m) :
    ∃ h : ℕ → ℚ, (lagrange_halfband m (some buf)).2 = some h
      ∧ ∑ i ∈ Finset.range (4*m - 1).toNat, h i = 1 := by
  rw [lagrange_halfband, if_neg (by omega)]
  refine ⟨_, rfl, ?_⟩
  have hM : 1 ≤ m.toNat := by omega
  have horden : (4*m - 1).toNat = 4*m.toNat - 1 := by omega
  have hcenter : (2*m - 1).toNat = 2*m.toNat - 1 := by omega
  rw [horden, hcenter]
  have hnd : ((List.range m.toNat).map (· + 1)).Nodup :=
    List.Nodup.map (fun a b hab => by omega) (List.nodup_range m.toNat)
  have hz : ∀ l ∈ (List.range m.toNat).map (· + 1),
      (upd (fun k => if k < 4*m.toNat-1 then (0:ℚ) else buf k) (2*m.toNat-1) (1/2))
        (2*m.toNat - 2 + 2*l) = 0
      ∧ (upd (fun k => if k < 4*m.toNat-1 then (0:ℚ) else buf k) (2*m.toNat-1) (1/2))
        (2*m.toNat - 2*l) = 0 := by
    intro l hl
    have hlr := lag_range_mem m.toNat l hl
    constructor
    · rw [upd_ne _ _ _ _ (by omega)]
      show (if 2*m.toNat-2+2*l < 4*m.toNat-1 then (0:ℚ) else buf (2*m.toNat-2+2*l)) = 0
      rw [if_pos (by omega)]
    · rw [upd_ne _ _ _ _ (by omega)]
      show (if 2*m.toNat-2*l < 4*m.toNat-1 then (0:ℚ) else buf (2*m.toNat-2*l)) = 0
      rw [if_pos (by omega)]
  rw [lag_fold_sum m.toNat hM _ _ (lag_range_mem m.toNat) hnd hz]
  rw [lag_base_sum m.toNat hM buf]
  rw [List.map_map, list_range_map_sum]
  rw [show ∑ j ∈ Finset.range m.toNat, (hmval m.toNat ∘ (· + 1)) j
      = ∑ j ∈ Finset.range m.toNat, hmval m.toNat (j+1) from rfl]
  rw [lag_code_sum m.toNat hM]
  norm_num

/-- Witness for `lagrange_dc_gain` at `m = 1`. -/
theorem lagrange_dc_gain_witness :
    ∃ h : ℕ → ℚ, (lagrange_halfband 1 (some (fun _ => 3))).2 = some h
      ∧ ∑ i ∈ Finset.range (4*1 - 1 : ℤ).toNat, h i = 1 :=
  lagrange_dc_gain 1 (fun _ => 3) (by norm_num)

/-! ## DWT engine (`dwt.c`) -/

/-- The compile-time filter family selected in `dwt.h` (`#define LAGRANGE`,
`DB4` or `DB8`), with the Lagrange parameter `LAGRANGE_M` made explicit. -/
inductive WaveletFamily where
  | LAGRANGE (M : ℕ)
  | DB4
  | DB8
  deriving DecidableEq, Repr

/-- `BUFFER_SIZE` per family: `4*LAGRANGE_M - 1`, `4`, `8`. -/
def BUFFER_SIZE : WaveletFamily → ℕ
  | .LAGRANGE M => 4*M - 1
  | .DB4 => 4
  | .DB8 => 8

/-- The Daubechies-4 low-pass table `WAVELET_DB4_H0`. -/
def WAVELET_DB4_H0 : List ℚ :=
  [0.48296291314469025, 0.83651630373746899, 0.22414386804185735, -0.12940952255092145]

/-- The Daubechies-8 low-pass table `WAVELET_DB8_H0`. -/
def WAVELET_DB8_H0 : List ℚ :=
  [5.441584220000000e-02, 3.128715909000000e-01, 6.756307363000000e-01,
   5.853546837000000e-01, -1.582910530000000e-02, -2.840155430000000e-01,
   4.724846000000000e-04, 1.287474266000000e-01]

/-- `DWT_OBJECT` from `dwt.h`: per-level delay lines (`lphp_z`), the shared
coefficient arrays, the temporary and final outputs, the embedded FIR write
cursors of `filtrolp[i]`/`filtrohp[i]`, and the two decimation counters.
The 32-bit unsigned counters are `ℕ` reduced mod `2^32` at each update. -/
structure DWT_OBJECT where
  lp_z : ℕ → List ℚ
  hp_z : ℕ → List ℚ
  lp_coef : List ℚ
  hp_coef : List ℚ
  yltemp : ℕ → ℚ
  yhtemp : ℕ → ℚ
  yout : ℕ → ℚ
  wlp : ℕ → ℕ
  whp : ℕ → ℕ
  decimator : ℕ → ℕ
  enabler : ℕ → ℕ

/-- `Get_DWT(pdwt)`: generate the low-pass/high-pass coefficient pair for
the configured family (the high-pass loop uses `signo`, seeded from the
parity of `BUFFER_SIZE` in the `LAGRANGE` branch and `-1` in the `DB4`/`DB8`
branches, and flips it each iteration, so at index `i` it is
`signo0 * (-1)^i`), clear all delay lines, temporaries, outputs and both
counters for every level, and start every FIR write cursor at its buffer's
start (as `Get_Fir` does). -/
def Get_DWT (fam : WaveletFamily) (L : ℕ) (pdwt : DWT_OBJECT) : DWT_OBJECT :=
  let N := BUFFER_SIZE fam
  let lp : List ℚ :=
    match fam with
    | .LAGRANGE M =>
      let out := ((lagrange_halfband (M : ℤ)
        (some (fun j => pdwt.lp_coef.getD j 0))).2).getD (fun _ => 0)
      (List.range N).map out
    | .DB4 => WAVELET_DB4_H0
    | .DB8 => WAVELET_DB8_H0
  let signo : ℤ :=
    match fam with
    | .LAGRANGE _ => if N % 2 = 0 then -1 else 1
    | .DB4 => -1
    | .DB8 => -1
  let hp : List ℚ :=
    (List.range N).map (fun i => ((signo * (-1)^i : ℤ) : ℚ) * lp.getD (N-1-i) 0)
  { lp_z := fun i => if i < L then List.replicate N 0 else pdwt.lp_z i
    hp_z := fun i => if i < L then List.replicate N 0 else pdwt.hp_z i
    lp_coef := lp
    hp_coef := hp
    yltemp := fun i => if i < L then 0 else pdwt.yltemp i
    yhtemp := fun i => if i < L then 0 else pdwt.yhtemp i
    yout := fun i => if i < L + 1 then 0 else pdwt.yout i
    wlp := fun i => if i < L then 0 else pdwt.wlp i
    whp := fun i => if i < L then 0 else pdwt.whp i
    decimator := fun i => if i < L then 0 else pdwt.decimator i
    enabler := fun i => if i < L then 0 else pdwt.enabler i }

/-- The unconditional `x -= 1` on a 32-bit unsigned counter. -/
def wrapDec (x : ℕ) : ℕ := (x + (2^32 - 1)) % 2^32

/-- The call `fir_api.fir_filter(xinput, &filtro)` made by `Dwt`: the object
pointer is never NULL there, so only the oversized-`ncoef` guard remains. -/
def fir_filter_obj (N : ℕ) (coef z : List ℚ) (w : ℕ) (xn : ℚ) : ℚ × List ℚ × ℕ :=
  if N > MAX_FIR_LENGTH then (0, z, w) else fir_filter_core N coef z w xn

/-- The body of the level loop of `Dwt` for level `i`, threading the state
and the set of levels whose `yout` slot was assigned during this call. -/
def dwtLevelStep (L N : ℕ) (xin : ℚ) (sr : DWT_OBJECT × (ℕ → Bool)) (i : ℕ) :
    DWT_OBJECT × (ℕ → Bool) :=
  let s := sr.1
  let r := sr.2
  let sr1 : DWT_OBJECT × (ℕ → Bool) :=
    if s.enabler i = 0 then
      let xinput := if i = 0 then xin else s.yltemp (i-1)
      let fh := fir_filter_obj N s.hp_coef (s.hp_z i) (s.whp i) xinput
      let fl := fir_filter_obj N s.lp_coef (s.lp_z i) (s.wlp i) xinput
      let s1 : DWT_OBJECT :=
        { s with hp_z := upd s.hp_z i fh.2.1, whp := upd s.whp i fh.2.2,
                 lp_z := upd s.lp_z i fl.2.1, wlp := upd s.wlp i fl.2.2,
                 enabler := upd s.enabler i ((2^i) % 2^32) }
      if s1.decimator i = 0 then
        ({ s1 with yhtemp := upd s1.yhtemp i fh.1,
                   yltemp := upd s1.yltemp i fl.1,
                   decimator := upd s1.decimator i ((2^(i+1)) % 2^32),
                   yout := if i = L - 1 then upd (upd s1.yout i fh.1) (i+1) fl.1
                           else upd s1.yout i fh.1 },
         upd r i true)
      else (s1, r)
    else (s, r)
  ({ sr1.1 with enabler := upd sr1.1.enabler i (wrapDec (sr1.1.enabler i)),
                decimator := upd sr1.1.decimator i (wrapDec (sr1.1.decimator i)) },
   sr1.2)

/-- `Dwt(xin, dwt_object)` together with the per-level commit events of this
call: the level loop `for i in 0..WAVELET_LEVELS-1`. -/
def DwtR (L N : ℕ) (xin : ℚ) (s : DWT_OBJECT) : DWT_OBJECT × (ℕ → Bool) :=
  (List.range L).foldl (dwtLevelStep L N xin) (s, fun _ => false)

/-- `Dwt(xin, dwt_object)`: the state after one per-sample call. -/
def Dwt (L N : ℕ) (xin : ℚ) (s : DWT_OBJECT) : DWT_OBJECT := (DwtR L N xin s).1

/-- The state after `t` calls of `Dwt` on the input stream `f`, starting
from the `Get_DWT` initial state. -/
def dwtIter (fam : WaveletFamily) (L : ℕ) (f : ℕ → ℚ) (pdwt : DWT_OBJECT) :
    ℕ → DWT_OBJECT
  | 0 => Get_DWT fam L pdwt
  | t+1 => Dwt L (BUFFER_SIZE fam) (f t) (dwtIter fam L f pdwt t)

/-! ### Behaviour of one level step on its own counters -/

/-- The net effect of one `Dwt` call on `enabler[i]`. -/
def enaNext (i e : ℕ) : ℕ := wrapDec (if e = 0 then (2^i) % 2^32 else e)

/-- The net effect of one `Dwt` call on `decimator[i]`. -/
def decNext (i e d : ℕ) : ℕ := wrapDec (if e = 0 ∧ d = 0 then (2^(i+1)) % 2^32 else d)

theorem levelStep_enabler (L N : ℕ) (xin : ℚ) (p : DWT_OBJECT × (ℕ → Bool)) (i : ℕ) :
    ((dwtLevelStep L N xin p i).1).enabler i = enaNext i (p.1.enabler i) := by
  unfold dwtLevelStep enaNext
  by_cases he : p.1.enabler i = 0
  · by_cases hd : p.1.decimator i = 0 <;>
      simp [he, hd, upd]
  · simp [he, upd]

theorem levelStep_decimator (L N : ℕ) (xin : ℚ) (p : DWT_OBJECT × (ℕ → Bool)) (i : ℕ) :
    ((dwtLevelStep L N xin p i).1).decimator i
      = decNext i (p.1.enabler i) (p.1.decimator i) := by
  unfold dwtLevelStep decNext
  by_cases he : p.1.enabler i = 0
  · by_cases hd : p.1.decimator i = 0 <;>
      simp [he, hd, upd]
  · simp [he, upd]

theorem levelStep_ready (L N : ℕ) (xin : ℚ) (p : DWT_OBJECT × (ℕ → Bool)) (i : ℕ) :
    (dwtLevelStep L N xin p i).2 i
      = (if p.1.enabler i = 0 ∧ p.1.decimator i = 0 then true else p.2 i) := by
  unfold dwtLevelStep
  by_cases he : p.1.enabler i = 0
  · by_cases hd : p.1.decimator i = 0 <;>
      simp [he, hd, upd]
  · simp [he]

theorem levelStep_enabler_ne (L N : ℕ) (xin : ℚ) (p : DWT_OBJECT × (ℕ → Bool)) (i j : ℕ)
    (hij : j ≠ i) : ((dwtLevelStep L N xin p i).1).enabler j = p.1.enabler j := by
  unfold dwtLevelStep
  by_cases he : p.1.enabler i = 0
  · by_cases hd : p.1.decimator i = 0 <;>
      simp [he, hd, upd, hij]
  · simp [he, upd, hij]

theorem levelStep_decimator_ne (L N : ℕ) (xin : ℚ) (p : DWT_OBJECT × (ℕ → Bool)) (i j : ℕ)
    (hij : j ≠ i) : ((dwtLevelStep L N xin p i).1).decimator j = p.1.decimator j := by
  unfold dwtLevelStep
  by_cases he : p.1.enabler i = 0
  · by_cases hd : p.1.decimator i = 0 <;>
      simp [he, hd, upd, hij]
  · simp [he, upd, hij]

theorem levelStep_ready_ne (L N : ℕ) (xin : ℚ) (p : DWT_OBJECT × (ℕ → Bool)) (i j : ℕ)
    (hij : j ≠ i) : (dwtLevelStep L N xin p i).2 j = p.2 j := by
  unfold dwtLevelStep
  by_cases he : p.1.enabler i = 0
  · by_cases hd : p.1.decimator i = 0 <;>
      simp [he, hd, upd, hij]
  · simp [he]

theorem foldl_counters_ne (L N : ℕ) (xin : ℚ) (l : List ℕ) :
    ∀ (p : DWT_OBJECT × (ℕ → Bool)) (i : ℕ), i ∉ l →
      ((l.foldl (dwtLevelStep L N xin) p).1.enabler i = p.1.enabler i)
      ∧ ((l.foldl (dwtLevelStep L N xin) p).1.decimator i = p.1.decimator i)
      ∧ ((l.foldl (dwtLevelStep L N xin) p).2 i = p.2 i) := by
  induction l with
  | nil => intro p i _; exact ⟨rfl, rfl, rfl⟩
  | cons j t ih =>
    intro p i hi
    have hij : i ≠ j := fun h => hi (h ▸ List.mem_cons_self j t)
    have hit : i ∉ t := fun h => hi (List.mem_cons_of_mem j h)
    rw [List.foldl_cons]
    obtain ⟨h1, h2, h3⟩ := ih (dwtLevelStep L N xin p j) i hit
    exact ⟨by rw [h1, levelStep_enabler_ne L N xin p j i hij],
           by rw [h2, levelStep_decimator_ne L N xin p j i hij],
           by rw [h3, levelStep_ready_ne L N xin p j i hij]⟩

theorem foldl_range_enabler (L N : ℕ) (xin : ℚ) (n : ℕ) :
    ∀ (p : DWT_OBJECT × (ℕ → Bool)) (i : ℕ), i < n →
      (((List.range n).foldl (dwtLevelStep L N xin) p).1).enabler i
        = enaNext i (p.1.enabler i) := by
  induction n with
  | zero => intro p i hi; omega
  | succ n ih =>
    intro p i hi
    rw [List.range_succ, List.foldl_append, List.foldl_cons, List.foldl_nil]
    rcases Nat.lt_or_ge i n with h | h
    · rw [levelStep_enabler_ne L N xin _ n i (by omega)]
      exact ih p i h
    · have hin : i = n := by omega
      subst hin
      have hnot : i ∉ List.range i := by simp
      obtain ⟨h1, _, _⟩ := foldl_counters_ne L N xin (List.range i) p i hnot
      rw [levelStep_enabler, h1]

theorem foldl_range_decimator (L N : ℕ) (xin : ℚ) (n : ℕ) :
    ∀ (p : DWT_OBJECT × (ℕ → Bool)) (i : ℕ), i < n →
      (((List.range n).foldl (dwtLevelStep L N xin) p).1).decimator i
        = decNext i (p.1.enabler i) (p.1.decimator i) := by
  induction n with
  | zero => intro p i hi; omega
  | succ n ih =>
    intro p i hi
    rw [List.range_succ, List.foldl_append, List.foldl_cons, List.foldl_nil]
    rcases Nat.lt_or_ge i n with h | h
    · rw [levelStep_decimator_ne L N xin _ n i (by omega)]
      exact ih p i h
    · have hin : i = n := by omega
      subst hin
      have hnot : i ∉ List.range i := by simp
      obtain ⟨h1, h2, _⟩ := foldl_counters_ne L N xin (List.range i) p i hnot
      rw [levelStep_decimator, h1, h2]

theorem foldl_range_ready (L N : ℕ) (xin : ℚ) (n : ℕ) :
    ∀ (p : DWT_OBJECT × (ℕ → Bool)) (i : ℕ), i < n →
      (((List.range n).foldl (dwtLevelStep L N xin) p).2) i
        = (if p.1.enabler i = 0 ∧ p.1.decimator i = 0 then true else p.2 i) := by
  induction n with
  | zero => intro p i hi; omega
  | succ n ih =>
    intro p i hi
    rw [List.range_succ, List.foldl_append, List.foldl_cons, List.foldl_nil]
    rcases Nat.lt_or_ge i n with h | h
    · rw [levelStep_ready_ne L N xin _ n i (by omega)]
      exact ih p i h
    · have hin : i = n := by omega
      subst hin
      have hnot : i ∉ List.range i := by simp
      obtain ⟨h1, h2, h3⟩ := foldl_counters_ne L N xin (List.range i) p i hnot
      rw [levelStep_ready, h1, h2, h3]

theorem DwtR_enabler (L N : ℕ) (xin : ℚ) (s : DWT_OBJECT) (i : ℕ) (hi : i < L) :
    (DwtR L N xin s).1.enabler i = enaNext i (s.enabler i) :=
  foldl_range_enabler L N xin L (s, fun _ => false) i hi

theorem DwtR_decimator (L N : ℕ) (xin : ℚ) (s : DWT_OBJECT) (i : ℕ) (hi : i < L) :
    (DwtR L N xin s).1.decimator i = decNext i (s.enabler i) (s.decimator i) :=
  foldl_range_decimator L N xin L (s, fun _ => false) i hi

theorem DwtR_ready (L N : ℕ) (xin : ℚ) (s : DWT_OBJECT) (i : ℕ) (hi : i < L) :
    (DwtR L N xin s).2 i
      = (if s.enabler i = 0 ∧ s.decimator i = 0 then true else false) :=
  foldl_range_ready L N xin L (s, fun _ => false) i hi

/-! ### Closed form of the decimation counters -/

theorem wrapDec_eq (x : ℕ) (h1 : 1 ≤ x) (h2 : x < 2^32) : wrapDec x = x - 1 := by
  unfold wrapDec
  rw [show x + (2^32 - 1) = (x-1) + 2^32 from by omega, Nat.add_mod_right,
    Nat.mod_eq_of_lt (by omega)]

theorem mod_succ_eq (t P : ℕ) (hP : 0 < P) :
    (t+1) % P = if t % P + 1 = P then 0 else t % P + 1 := by
  have h := Nat.mod_lt t hP
  rw [Nat.add_mod]
  by_cases hP1 : P = 1
  · subst hP1
    simp [Nat.mod_one]
  · rw [Nat.mod_eq_of_lt (show 1 < P by omega)]
    by_cases hc : t % P + 1 = P
    · rw [if_pos hc, hc, Nat.mod_self]
    · rw [if_neg hc, Nat.mod_eq_of_lt (by omega)]

theorem ctr_zero_iff (P t : ℕ) (hP : 0 < P) : (P - t % P) % P = 0 ↔ t % P = 0 := by
  have h := Nat.mod_lt t hP
  constructor
  · intro hz
    by_contra hne
    rw [Nat.mod_eq_of_lt (by omega)] at hz
    omega
  · intro h0
    rw [h0]
    simp

theorem ctrNext_closed (P t : ℕ) (hP : 1 ≤ P) (h32 : P < 2^32) :
    wrapDec (if (P - t % P) % P = 0 then P % 2^32 else (P - t % P) % P)
      = (P - (t+1) % P) % P := by
  have hmod : t % P < P := Nat.mod_lt _ hP
  have hsucc := mod_succ_eq t P hP
  by_cases h0 : t % P = 0
  · rw [if_pos ((ctr_zero_iff P t hP).mpr h0)]
    rw [Nat.mod_eq_of_lt h32, wrapDec_eq _ hP h32]
    rw [hsucc, h0]
    by_cases hP1 : P = 1
    · subst hP1
      simp
    · rw [if_neg (by omega), Nat.mod_eq_of_lt (show P - (0+1) < P by omega)]
  · have hev : (P - t % P) % P = P - t % P := Nat.mod_eq_of_lt (by omega)
    rw [if_neg (fun hz => h0 ((ctr_zero_iff P t hP).mp hz))]
    rw [hev, wrapDec_eq _ (by omega) (by omega)]
    rw [hsucc]
    by_cases hc : t % P + 1 = P
    · rw [if_pos hc]
      simp only [Nat.sub_zero, Nat.mod_self]
      omega
    · rw [if_neg hc, Nat.mod_eq_of_lt (show P - (t % P + 1) < P by omega)]
      omega

theorem enaNext_closed (i t : ℕ) (hi : i ≤ 31) :
    enaNext i ((2^i - t % 2^i) % 2^i) = (2^i - (t+1) % 2^i) % 2^i := by
  have h32 : (2:ℕ)^i < 2^32 :=
    lt_of_le_of_lt (Nat.pow_le_pow_right (by norm_num) hi) (by norm_num)
  exact ctrNext_closed (2^i) t (Nat.one_le_two_pow) h32

theorem decNext_closed (i t : ℕ) (hi : i + 1 ≤ 31) :
    decNext i ((2^i - t % 2^i) % 2^i) ((2^(i+1) - t % 2^(i+1)) % 2^(i+1))
      = (2^(i+1) - (t+1) % 2^(i+1)) % 2^(i+1) := by
  have h32 : (2:ℕ)^(i+1) < 2^32 :=
    lt_of_le_of_lt (Nat.pow_le_pow_right (by norm_num) hi) (by norm_num)
  have hsync : (((2:ℕ)^i - t % 2^i) % 2^i = 0
        ∧ ((2:ℕ)^(i+1) - t % 2^(i+1)) % 2^(i+1) = 0)
      ↔ ((2:ℕ)^(i+1) - t % 2^(i+1)) % 2^(i+1) = 0 := by
    constructor
    · exact And.right
    · intro hd
      refine ⟨?_, hd⟩
      have hd' : t % 2^(i+1) = 0 := (ctr_zero_iff _ _ (Nat.pos_pow_of_pos _ (by norm_num))).mp hd
      have he' : t % 2^i = 0 := by
        have hdvd : (2:ℕ)^i ∣ 2^(i+1) := ⟨2, by ring⟩
        rw [← Nat.mod_mod_of_dvd t hdvd, hd', Nat.zero_mod]
      exact (ctr_zero_iff _ _ (Nat.pos_pow_of_pos _ (by norm_num))).mpr he'
  unfold decNext
  rw [if_congr hsync rfl rfl]
  exact ctrNext_closed (2^(i+1)) t (Nat.one_le_two_pow) h32

theorem dwtIter_enabler (fam : WaveletFamily) (L : ℕ) (f : ℕ → ℚ) (pdwt : DWT_OBJECT)
    (t i : ℕ) (hi : i < L) (hL : L ≤ 15) :
    (dwtIter fam L f pdwt t).enabler i = (2^i - t % 2^i) % 2^i := by
  induction t with
  | zero =>
    show (Get_DWT fam L pdwt).enabler i = _
    unfold Get_DWT
    simp only [if_pos hi]
    rw [Nat.zero_mod, Nat.sub_zero, Nat.mod_self]
  | succ t ih =>
    show (Dwt L (BUFFER_SIZE fam) (f t) (dwtIter fam L f pdwt t)).enabler i = _
    unfold Dwt
    rw [DwtR_enabler _ _ _ _ i hi, ih]
    exact enaNext_closed i t (by omega)

theorem dwtIter_decimator (fam : WaveletFamily) (L : ℕ) (f : ℕ → ℚ) (pdwt : DWT_OBJECT)
    (t i : ℕ) (hi : i < L) (hL : L ≤ 15) :
    (dwtIter fam L f pdwt t).decimator i = (2^(i+1) - t % 2^(i+1)) % 2^(i+1) := by
  induction t with
  | zero =>
    show (Get_DWT fam L pdwt).decimator i = _
    unfold Get_DWT
    simp only [if_pos hi]
    rw [Nat.zero_mod, Nat.sub_zero, Nat.mod_self]
  | succ t ih =>
    show (Dwt L (BUFFER_SIZE fam) (f t) (dwtIter fam L f pdwt t)).decimator i = _
    unfold Dwt
    rw [DwtR_decimator _ _ _ _ i hi, ih,
      dwtIter_enabler fam L f pdwt t i hi hL]
    exact decNext_closed i t (by omega)

/-- **C1.** For a pipeline with `L` levels started from the zeroed initial
state produced by `Get_DWT`, level `i`'s `yout[i]` commit event on the call
with 0-based index `t` happens exactly when `t` is a multiple of `2^(i+1)`:
on the first call (`t = 0`) and thereafter once every `2^(i+1)` calls. -/
theorem dwt_decimation_cadence (fam : WaveletFamily) (L : ℕ) (f : ℕ → ℚ)
    (pdwt : DWT_OBJECT) (t i : ℕ) (hi : i < L) (hL : L ≤ 15) :
    ((DwtR L (BUFFER_SIZE fam) (f t) (dwtIter fam L f pdwt t)).2 i = true)
      ↔ t % 2^(i+1) = 0 := by
  rw [DwtR_ready _ _ _ _ i hi,
    dwtIter_enabler fam L f pdwt t i hi hL,
    dwtIter_decimator fam L f pdwt t i hi hL]
  have hpe : (0:ℕ) < 2^i := Nat.pos_pow_of_pos _ (by norm_num)
  have hpd : (0:ℕ) < 2^(i+1) := Nat.pos_pow_of_pos _ (by norm_num)
  by_cases hd : t % 2^(i+1) = 0
  · have he : t % 2^i = 0 := by
      have hdvd : (2:ℕ)^i ∣ 2^(i+1) := ⟨2, by ring⟩
      rw [← Nat.mod_mod_of_dvd t hdvd, hd, Nat.zero_mod]
    rw [if_pos ⟨(ctr_zero_iff _ _ hpe).mpr he, (ctr_zero_iff _ _ hpd).mpr hd⟩]
    simp [hd]
  · rw [if_neg (fun hcon => hd ((ctr_zero_iff _ _ hpd).mp hcon.2))]
    simp [hd]

/-- Witness for `dwt_decimation_cadence`: a one-level DB4 pipeline commits
`yout[0]` on the very first call. -/
theorem dwt_decimation_cadence_witness :
    ((DwtR 1 (BUFFER_SIZE .DB4) ((fun _ => (0:ℚ)) 0)
        (dwtIter .DB4 1 (fun _ => (0:ℚ))
          ⟨fun _ => [], fun _ => [], [], [], fun _ => 0, fun _ => 0, fun _ => 0,
           fun _ => 0, fun _ => 0, fun _ => 0, fun _ => 0⟩ 0)).2 0 = true)
      ↔ 0 % 2^(0+1) = 0 :=
  dwt_decimation_cadence .DB4 1 (fun _ => 0)
    ⟨fun _ => [], fun _ => [], [], [], fun _ => 0, fun _ => 0, fun _ => 0,
     fun _ => 0, fun _ => 0, fun _ => 0, fun _ => 0⟩ 0 0 (by decide) (by decide)

/-- **C10.** Invariant of the `Dwt` step: in every state reachable from the
`Get_DWT` initial state, `enabler[i] ≤ 2^i - 1` and
`decimator[i] ≤ 2^(i+1) - 1`, `decimator[i] = 0` forces `enabler[i] = 0`,
and the two values to which the next call applies its unconditional
unsigned decrements (the reloaded value when the counter is 0, the counter
itself otherwise) are strictly positive — so the unsigned counters never
wrap below zero. -/
theorem dwt_counter_invariant (fam : WaveletFamily) (L : ℕ) (f : ℕ → ℚ)
    (pdwt : DWT_OBJECT) (t i : ℕ) (hi : i < L) (hL : L ≤ 15) :
    (dwtIter fam L f pdwt t).enabler i ≤ 2^i - 1
    ∧ (dwtIter fam L f pdwt t).decimator i ≤ 2^(i+1) - 1
    ∧ ((dwtIter fam L f pdwt t).decimator i = 0 → (dwtIter fam L f pdwt t).enabler i = 0)
    ∧ 0 < (if (dwtIter fam L f pdwt t).enabler i = 0 then 2^i % 2^32
           else (dwtIter fam L f pdwt t).enabler i)
    ∧ 0 < (if (dwtIter fam L f pdwt t).enabler i = 0
              ∧ (dwtIter fam L f pdwt t).decimator i = 0
           then 2^(i+1) % 2^32 else (dwtIter fam L f pdwt t).decimator i) := by
  rw [dwtIter_enabler fam L f pdwt t i hi hL, dwtIter_decimator fam L f pdwt t i hi hL]
  have hpe : (0:ℕ) < 2^i := Nat.pos_pow_of_pos _ (by norm_num)
  have hpd : (0:ℕ) < 2^(i+1) := Nat.pos_pow_of_pos _ (by norm_num)
  have h32e : (2:ℕ)^i < 2^32 :=
    lt_of_le_of_lt (Nat.pow_le_pow_right (by norm_num) (show i ≤ 31 by omega)) (by norm_num)
  have h32d : (2:ℕ)^(i+1) < 2^32 :=
    lt_of_le_of_lt (Nat.pow_le_pow_right (by norm_num) (show i+1 ≤ 31 by omega)) (by norm_num)
  have hme : t % 2^i < 2^i := Nat.mod_lt _ hpe
  have hmd : t % 2^(i+1) < 2^(i+1) := Nat.mod_lt _ hpd
  have hem : (2^i - t % 2^i) % 2^i ≤ 2^i - 1 := by
    have := Nat.mod_lt (2^i - t % 2^i) hpe
    omega
  have hdm : (2^(i+1) - t % 2^(i+1)) % 2^(i+1) ≤ 2^(i+1) - 1 := by
    have := Nat.mod_lt (2^(i+1) - t % 2^(i+1)) hpd
    omega
  refine ⟨hem, hdm, ?_, ?_, ?_⟩
  · intro hd0
    have hd' := (ctr_zero_iff _ _ hpd).mp hd0
    have he' : t % 2^i = 0 := by
      have hdvd : (2:ℕ)^i ∣ 2^(i+1) := ⟨2, by ring⟩
      rw [← Nat.mod_mod_of_dvd t hdvd, hd', Nat.zero_mod]
    exact (ctr_zero_iff _ _ hpe).mpr he'
  · by_cases he0 : (2^i - t % 2^i) % 2^i = 0
    · rw [if_pos he0, Nat.mod_eq_of_lt h32e]
      exact hpe
    · rw [if_neg he0]
      omega
  · by_cases hc : (2^i - t % 2^i) % 2^i = 0 ∧ (2^(i+1) - t % 2^(i+1)) % 2^(i+1) = 0
    · rw [if_pos hc, Nat.mod_eq_of_lt h32d]
      exact hpd
    · rw [if_neg hc]
      by_cases hd0 : (2^(i+1) - t % 2^(i+1)) % 2^(i+1) = 0
      · exfalso
        apply hc
        refine ⟨?_, hd0⟩
        have hd' := (ctr_zero_iff _ _ hpd).mp hd0
        have he' : t % 2^i = 0 := by
          have hdvd : (2:ℕ)^i ∣ 2^(i+1) := ⟨2, by ring⟩
          rw [← Nat.mod_mod_of_dvd t hdvd, hd', Nat.zero_mod]
        exact (ctr_zero_iff _ _ hpe).mpr he'
      · omega

/-- Witness for `dwt_counter_invariant` after three calls of a two-level
DB4 pipeline. -/
theorem dwt_counter_invariant_witness :
    (dwtIter .DB4 2 (fun _ => (0:ℚ))
        ⟨fun _ => [], fun _ => [], [], [], fun _ => 0, fun _ => 0, fun _ => 0,
         fun _ => 0, fun _ => 0, fun _ => 0, fun _ => 0⟩ 3).enabler 1 ≤ 2^1 - 1
    ∧ (dwtIter .DB4 2 (fun _ => (0:ℚ))
        ⟨fun _ => [], fun _ => [], [], [], fun _ => 0, fun _ => 0, fun _ => 0,
         fun _ => 0, fun _ => 0, fun _ => 0, fun _ => 0⟩ 3).decimator 1 ≤ 2^(1+1) - 1
    ∧ ((dwtIter .DB4 2 (fun _ => (0:ℚ))
        ⟨fun _ => [], fun _ => [], [], [], fun _ => 0, fun _ => 0, fun _ => 0,
         fun _ => 0, fun _ => 0, fun _ => 0, fun _ => 0⟩ 3).decimator 1 = 0 →
       (dwtIter .DB4 2 (fun _ => (0:ℚ))
        ⟨fun _ => [], fun _ => [], [], [], fun _ => 0, fun _ => 0, fun _ => 0,
         fun _ => 0, fun _ => 0, fun _ => 0, fun _ => 0⟩ 3).enabler 1 = 0)
    ∧ 0 < (if (dwtIter .DB4 2 (fun _ => (0:ℚ))
        ⟨fun _ => [], fun _ => [], [], [], fun _ => 0, fun _ => 0, fun _ => 0,
         fun _ => 0, fun _ => 0, fun _ => 0, fun _ => 0⟩ 3).enabler 1 = 0 then 2^1 % 2^32
           else (dwtIter .DB4 2 (fun _ => (0:ℚ))
        ⟨fun _ => [], fun _ => [], [], [], fun _ => 0, fun _ => 0, fun _ => 0,
         fun _ => 0, fun _ => 0, fun _ => 0, fun _ => 0⟩ 3).enabler 1)
    ∧ 0 < (if (dwtIter .DB4 2 (fun _ => (0:ℚ))
        ⟨fun _ => [], fun _ => [], [], [], fun _ => 0, fun _ => 0, fun _ => 0,
         fun _ => 0, fun _ => 0, fun _ => 0, fun _ => 0⟩ 3).enabler 1 = 0
              ∧ (dwtIter .DB4 2 (fun _ => (0:ℚ))
        ⟨fun _ => [], fun _ => [], [], [], fun _ => 0, fun _ => 0, fun _ => 0,
         fun _ => 0, fun _ => 0, fun _ => 0, fun _ => 0⟩ 3).decimator 1 = 0
           then 2^(1+1) % 2^32 else (dwtIter .DB4 2 (fun _ => (0:ℚ))
        ⟨fun _ => [], fun _ => [], [], [], fun _ => 0, fun _ => 0, fun _ => 0,
         fun _ => 0, fun _ => 0, fun _ => 0, fun _ => 0⟩ 3).decimator 1) :=
  dwt_counter_invariant .DB4 2 (fun _ => 0)
    ⟨fun _ => [], fun _ => [], [], [], fun _ => 0, fun _ => 0, fun _ => 0,
     fun _ => 0, fun _ => 0, fun _ => 0, fun _ => 0⟩ 3 1 (by decide) (by decide)

/-! ### Quadrature-mirror relation of the generated filter pairs -/

theorem range_map_getD (g : ℕ → ℚ) (N i : ℕ) (hi : i < N) :
    ((List.range N).map g).getD i 0 = g i := by
  rw [List.getD_eq_getElem?_getD, List.getElem?_map, List.getElem?_range hi]
  rfl

/-- **C6.** For every supported family, the high-pass coefficients set up by
`Get_DWT` satisfy `h1[i] = sign_i * h0[N-1-i]` for all `i < N`, where
`sign_i = start * (-1)^i` alternates and its start is seeded by the parity
of `N`: `+1` for odd `N` (Lagrange, `N = 4m-1`) and `-1` for even `N`
(DB4 with `N = 4`, DB8 with `N = 8`). -/
theorem dwt_qmf_relation (fam : WaveletFamily) (L : ℕ) (pdwt : DWT_OBJECT) (i : ℕ)
    (hi : i < BUFFER_SIZE fam) :
    (Get_DWT fam L pdwt).hp_coef.getD i 0
      = (((if BUFFER_SIZE fam % 2 = 0 then (-1:ℤ) else 1) * (-1)^i : ℤ) : ℚ)
        * (Get_DWT fam L pdwt).lp_coef.getD (BUFFER_SIZE fam - 1 - i) 0 := by
  cases fam with
  | LAGRANGE M =>
    unfold Get_DWT
    dsimp only
    rw [range_map_getD _ _ i hi]
  | DB4 =>
    unfold Get_DWT
    dsimp only
    rw [range_map_getD _ _ i hi]
    norm_num [BUFFER_SIZE]
  | DB8 =>
    unfold Get_DWT
    dsimp only
    rw [range_map_getD _ _ i hi]
    norm_num [BUFFER_SIZE]

/-- Witness for `dwt_qmf_relation`: DB4, index 0. -/
theorem dwt_qmf_relation_witness :
    (Get_DWT .DB4 2
        ⟨fun _ => [], fun _ => [], [], [], fun _ => 0, fun _ => 0, fun _ => 0,
         fun _ => 0, fun _ => 0, fun _ => 0, fun _ => 0⟩).hp_coef.getD 0 0
      = (((if BUFFER_SIZE .DB4 % 2 = 0 then (-1:ℤ) else 1) * (-1)^0 : ℤ) : ℚ)
        * (Get_DWT .DB4 2
        ⟨fun _ => [], fun _ => [], [], [], fun _ => 0, fun _ => 0, fun _ => 0,
         fun _ => 0, fun _ => 0, fun _ => 0, fun _ => 0⟩).lp_coef.getD
            (BUFFER_SIZE .DB4 - 1 - 0) 0 :=
  dwt_qmf_relation .DB4 2
    ⟨fun _ => [], fun _ => [], [], [], fun _ => 0, fun _ => 0, fun _ => 0,
     fun _ => 0, fun _ => 0, fun _ => 0, fun _ => 0⟩ 0 (by decide)

end NSDSP
